import Mathlib

/-!
Verification of the phase-shift loader and cache of CLEED
(`leed_inp_phase` in LINPPHASE.C).

The C function is shallowly embedded below.  `real` values are modelled as
rationals (the numeric text format of the inputs is decimal, so every value
that the parser produces is an exact rational), machine strings as Lean
`String`s, the filesystem as a partial map from filenames to lists of lines
(a line is modelled without its trailing newline; `sscanf` skips it as
whitespace and the column-skipping loops treat the end of the buffer as
their stopping point), and the process-global record array together with the
global counter `i_phase` as an explicit `PhaseState` that is threaded through
`resolveOrLoad` (= `leed_inp_phase`).  The fatal `exit(1)` paths of the C
code are modelled as `Except.error` results.

Constants `HART`, `GEO_TOLERANCE` and `I_END_OF_LIST` come from the headers
`leed.h` / `leed_def.h`, which are not part of the supplied sources; their
values (27.18, an absolute tolerance of 1e-4, and the sentinel -9999) follow
the documentation comments of LINPPHASE.C and the spec.  No theorem below
depends on the particular numeric value of `I_END_OF_LIST`, and the theorems
about the cache identity check depend only on `GEO_TOLERANCE` being a fixed
absolute tolerance.
-/

/-- Decidable equality of `Except` results, so that concrete runs of the
model can be checked by `decide`. -/
instance exceptDecEq {ε α : Type} [DecidableEq ε] [DecidableEq α] :
    DecidableEq (Except ε α) := fun x y =>
  match x, y with
  | .ok a, .ok b =>
    if h : a = b then isTrue (by rw [h]) else isFalse (fun hc => h (Except.ok.inj hc))
  | .error a, .error b =>
    if h : a = b then isTrue (by rw [h]) else isFalse (fun hc => h (Except.error.inj hc))
  | .ok _, .error _ => isFalse (fun hc => Except.noConfusion hc)
  | .error _, .ok _ => isFalse (fun hc => Except.noConfusion hc)

namespace Linpphase

/-- Constant `HART` = 27.18: one Hartree in eV (from `leed_def.h`, per the spec). -/
def HART : ℚ := 2718 / 100

/-- Constant `GEO_TOLERANCE`: absolute tolerance of the displacement comparison in the
cache identity check (from `leed_def.h`). -/
def GEO_TOLERANCE : ℚ := 1 / 10000

/-- Constant `I_END_OF_LIST`: sentinel written into the `lmax` field of the array slot
one past the last real record (from `leed_def.h`). -/
def I_END_OF_LIST : Int := -9999

/-! ### The `sscanf` number conversions

`sscanf(buf, "%le", …)` / `"%d"` / `"%s"` are modelled by the small parsers
below.  A conversion that fails leaves the target object unchanged; callers
model this with `Option.getD` applied to the previous contents. -/

/-- C `isspace` on the characters that can occur here. -/
def isWS (c : Char) : Bool :=
  c = ' ' || c = '\t' || c = '\n' || c = '\r' || c = Char.ofNat 11 || c = Char.ofNat 12

/-- Decimal digit test. -/
def isDigitC (c : Char) : Bool :=
  decide ('0' ≤ c) && decide (c ≤ '9')

/-- Split a leading run of decimal digits off a character list, returning the
digit values and the rest. -/
def takeDigits : List Char → List Nat × List Char
  | [] => ([], [])
  | c :: cs =>
    if isDigitC c then
      let r := takeDigits cs
      ((c.toNat - 48) :: r.1, r.2)
    else ([], c :: cs)

/-- Value of a digit sequence read most-significant first. -/
def natOfDigits (ds : List Nat) : Nat :=
  ds.foldl (fun a d => 10 * a + d) 0

/-- Optional sign at the head of the input: `-` gives -1, `+` is consumed,
anything else leaves the input alone. -/
def splitSign (cs : List Char) : ℚ × List Char :=
  match cs with
  | c :: r => if c = '-' then (-1, r) else if c = '+' then (1, r) else (1, cs)
  | [] => (1, [])

/-- Fractional part: a `.` followed by digits; otherwise nothing. -/
def afterDot (cs : List Char) : List Nat × List Char :=
  match cs with
  | c :: r => if c = '.' then takeDigits r else ([], cs)
  | [] => ([], [])

/-- Signed digit run of an exponent (`sscanf` would reject a dangling `e`
with no digits; such inputs do not occur in the phase-shift format, and the
model reads the empty digit run as exponent 0). -/
def parseExpPart (cs : List Char) : Int :=
  let sg : Int × List Char :=
    match cs with
    | c :: r => if c = '-' then (-1, r) else if c = '+' then (1, r) else (1, cs)
    | [] => (1, [])
  sg.1 * natOfDigits (takeDigits sg.2).1

/-- Exponent marker `e`/`E` at the head of the remaining input. -/
def expOf (cs : List Char) : Int :=
  match cs with
  | c :: r => if c = 'e' ∨ c = 'E' then parseExpPart r else 0
  | [] => 0

/-- Integer power of ten as a rational. -/
def qpow10 (z : Int) : ℚ :=
  if 0 ≤ z then (10 : ℚ) ^ z.toNat else ((10 : ℚ) ^ (-z).toNat)⁻¹

/-- Conversion `sscanf(cs, "%le", &x)`: skip leading whitespace, optional sign, digits
with optional fraction and optional exponent.  `none` when no digit at all
could be read (conversion failure). -/
def parseDouble (cs0 : List Char) : Option ℚ :=
  let cs1 := cs0.dropWhile isWS
  let sg := splitSign cs1
  let md := takeDigits sg.2
  let fd := afterDot md.2
  if md.1 = [] ∧ fd.1 = [] then none
  else some (sg.1 * ((natOfDigits md.1 : ℚ) + (natOfDigits fd.1 : ℚ) / 10 ^ fd.1.length)
      * qpow10 (expOf fd.2))

/-- Conversion `sscanf` `%d`: skip whitespace, optional sign, at least one digit. -/
def parseIntTok (cs : List Char) : Option (Int × List Char) :=
  let cs1 := cs.dropWhile isWS
  let sg : Int × List Char :=
    match cs1 with
    | c :: r => if c = '-' then (-1, r) else if c = '+' then (1, r) else (1, cs1)
    | [] => (1, [])
  let ds := takeDigits sg.2
  if ds.1 = [] then none else some (sg.1 * natOfDigits ds.1, ds.2)

/-- Conversion `sscanf` `%s`: the next whitespace-delimited token.  When the buffer
holds no further token the C target object `eng_type` stays untouched; the
model represents that indeterminate buffer as the empty string (which matches
none of the unit prefixes, i.e. yields the default energy scale). -/
def firstTok (cs : List Char) : String :=
  String.mk ((cs.dropWhile isWS).takeWhile (fun c => !isWS c))

/-- Test on the first character of a buffer, as in `*phaseinp != '/'`
(line 85) and `*fgets(linebuffer, …) == '#'` (line 161).  An empty buffer
holds `'\0'` there, which is none of the characters compared against. -/
def firstCharIs (s : String) (c : Char) : Bool :=
  match s.data with
  | [] => false
  | a :: _ => a = c

/-- Comparison `strncmp(s, t, 2) == 0` for a two-character `t`: the first two
characters of `s` both exist and are exactly `c1`, `c2` (a shorter `s` ends
in `'\0'` and never matches). -/
def strncmp2 (s : String) (c1 c2 : Char) : Bool :=
  match s.data with
  | a :: b :: _ => a = c1 && b = c2
  | _ => false

/-- The header line `sscanf(linebuffer, "%d %d %s", &n_eng, &lmax, eng_type)`
(LINPPHASE.C line 168): fewer than two integer conversions is the fatal
format error, the third conversion is optional. -/
def parseHeader (s : String) : Option (Int × Int × String) :=
  match parseIntTok s.toList with
  | none => none
  | some (a, r1) =>
    match parseIntTok r1 with
    | none => none
    | some (b, r2) => some (a, b, firstTok r2)

/-- Energy scale selection from the unit token (LINPPHASE.C lines 178-192):
`strncmp` of the first two characters against exactly `eV`, `EV`, `Ry`, `RY`. -/
def engScale (tok : String) : ℚ :=
  if strncmp2 tok 'e' 'V' || strncmp2 tok 'E' 'V' then 1 / HART
  else if strncmp2 tok 'R' 'y' || strncmp2 tok 'R' 'Y' then 2 / HART
  else 1

/-! ### The packed phase-shift line tokenizer (LINPPHASE.C lines 225-238) -/

/-- Loop `while (linebuffer[i_str] == ' ' || linebuffer[i_str] == '-') i_str++;`
(line 235).  In C the loop would also run past the terminating NUL into
whatever follows; the model stops at the end of the buffer, which is where
every in-specification input stops anyway. -/
def skipSM (cs : List Char) (i : Nat) : Nat :=
  if h : i < cs.length then
    if cs.get ⟨i, h⟩ = ' ' ∨ cs.get ⟨i, h⟩ = '-' then skipSM cs (i + 1) else i
  else i
termination_by cs.length - i

/-- Loop `while (linebuffer[i_str] != ' ' && linebuffer[i_str] != '-') i_str++;`
(line 236), bounded at the end of the buffer as above. -/
def skipNSM (cs : List Char) (i : Nat) : Nat :=
  if h : i < cs.length then
    if cs.get ⟨i, h⟩ = ' ' ∨ cs.get ⟨i, h⟩ = '-' then i else skipNSM cs (i + 1)
  else i
termination_by cs.length - i

/-- Inner loop of lines 227-237: for `i = 0 .. nl-1`, `sscanf` a value at
offset `i_str` into `pshift[base + i]` (a failed conversion leaves the
previous contents), then advance `i_str` past the numeral by first skipping
spaces and minus signs, then skipping non-space/non-minus characters. -/
def writePShiftsGo (cs : List Char) (nl base : Nat) (i_str i : Nat) (ps : List ℚ) : List ℚ :=
  if i < nl then
    let v := (parseDouble (cs.drop i_str)).getD (ps.getD (base + i) 0)
    let i1 := skipSM cs i_str
    let i2 := skipNSM cs i1
    writePShiftsGo cs nl base i2 (i + 1) (ps.set (base + i) v)
  else ps
termination_by nl - i

/-- Read the `nl` packed phase-shift values of one line into `ps` starting at
index `base` (= `i_eng * nl`). -/
def writePShifts (cs : List Char) (nl : Nat) (ps : List ℚ) (base : Nat) : List ℚ :=
  writePShiftsGo cs nl base 0 0 ps

/-! ### Errors, warnings, and the record data model -/

/-- The fatal/abnormal exits of `leed_inp_phase`.  `configError`, `ioError`,
`eofInput` and `formatError` are the `exit(1)` calls of the C code;
`oobRead` marks the out-of-bounds read `energy[i_eng - 1]` of the truncation
branch when `i_eng == 0` (line 242), which in C is undefined behaviour. -/
inductive LeedError where
  | configError
  | ioError (path : String)
  | eofInput
  | formatError
  | oobRead
deriving DecidableEq

/-- The `WARNING_MSG` of lines 273-275 carries the declared energy count and,
as the found count, `i_eng + 1`. -/
structure TruncWarning where
  expected : Nat
  found : Nat
deriving DecidableEq

/-- The read loop of lines 208-245.  State: remaining input lines, `i_eng`,
the `energy` and `pshift` arrays, and the `eng_min` / `eng_max` fields
(`none` = never assigned, i.e. indeterminate in C).  Each iteration reads one
energy line (a failed `fgets` ends the loop), scales and stores the energy,
updates `eng_min` (index 0) or `eng_max` (all later indices), then reads the
phase-shift line; if that line is missing the current energy entry is zeroed,
`eng_max` is set from `energy[i_eng - 1]`, and the loop breaks. -/
def readLoop (scale : ℚ) (nEng nl : Nat) (lines : List String) (i_eng : Nat)
    (energy pshift : List ℚ) (em ex : Option ℚ) :
    Except LeedError (Nat × List ℚ × List ℚ × Option ℚ × Option ℚ) :=
  if i_eng < nEng then
    match lines with
    | [] => .ok (i_eng, energy, pshift, em, ex)
    | eline :: rest =>
      let ev := (parseDouble eline.toList).getD (energy.getD i_eng 0) * scale
      let energy1 := energy.set i_eng ev
      let em1 := if i_eng = 0 then some ev else em
      let ex1 := if i_eng = 0 then ex else some ev
      match rest with
      | [] =>
        let energy2 := energy1.set i_eng 0
        if i_eng = 0 then .error .oobRead
        else .ok (i_eng, energy2, pshift, em1, some (energy2.getD (i_eng - 1) 0))
      | pline :: rest2 =>
        readLoop scale nEng nl rest2 (i_eng + 1) energy1
          (writePShifts pline.toList nl pshift (i_eng * nl)) em1 ex1
  else .ok (i_eng, energy, pshift, em, ex)

/-- What the parsing part of `leed_inp_phase` (lines 154-276) computes for a
new record, before the identity fields are attached. -/
structure ParsedData where
  lmax : Int
  n_eng : Nat
  energy : List ℚ
  pshift : List ℚ
  eng_min : Option ℚ
  eng_max : Option ℚ
  warnings : List TruncWarning
deriving DecidableEq

/-- File parsing protocol: skip lines starting with `#` (line 161; running
out of input there dereferences the NULL result of `fgets` in C, modelled as
`eofInput`), parse the header, select the scale, allocate `energy` and
`pshift` (malloc contents modelled as zeros; no theorem reads an entry that
the C code leaves unwritten), run the read loop, store `n_eng := i_eng`, and
emit the truncation warning when the counts differ (lines 271-276). -/
def parseFile (lines : List String) : Except LeedError ParsedData :=
  match lines.dropWhile (fun l => firstCharIs l '#') with
  | [] => .error .eofInput
  | header :: rest =>
    match parseHeader header with
    | none => .error .formatError
    | some (nEngZ, lmaxZ, tok) =>
      let nEngN := nEngZ.toNat
      let nl := (lmaxZ + 1).toNat
      let scale := engScale tok
      match readLoop scale nEngN nl rest 0 (List.replicate nEngN 0)
          (List.replicate (nEngN * nl) 0) none none with
      | .error e => .error e
      | .ok (i_eng, energyA, pshiftA, em, ex) =>
        .ok { lmax := lmaxZ, n_eng := i_eng, energy := energyA, pshift := pshiftA,
              eng_min := em, eng_max := ex,
              warnings := if i_eng = nEngN then [] else [⟨nEngN, i_eng + 1⟩] }

/-- One entry of the `leed_phase` array.  `eng_min` / `eng_max` are `Option`s
because the C code assigns them only under conditions. -/
structure LeedPhase where
  lmax : Int
  input_file : String
  dr : List ℚ
  n_eng : Nat
  energy : List ℚ
  pshift : List ℚ
  eng_min : Option ℚ
  eng_max : Option ℚ
deriving DecidableEq

/-- Freshly allocated (indeterminate) slot contents.  No theorem depends on
these default values: they stand for malloc garbage. -/
def blankSlot : LeedPhase :=
  { lmax := 0, input_file := "", dr := [0, 0, 0, 0], n_eng := 0,
    energy := [], pshift := [], eng_min := none, eng_max := none }

/-- The process-global state: the allocated `leed_phase` array (including the
sentinel slot past the last real record) and the global counter `i_phase`. -/
structure PhaseState where
  slots : List LeedPhase
  i_phase : Nat
deriving DecidableEq

/-- The real records are the first `i_phase` slots. -/
def recordsOf (st : PhaseState) : List LeedPhase := st.slots.take st.i_phase

/-- Identity check of lines 106-109: exact filename equality and each of
`dr[1..3]` within `GEO_TOLERANCE` (strict, absolute). -/
def matchesRec (fn : String) (d : List ℚ) (r : LeedPhase) : Bool :=
  decide (r.input_file = fn) &&
  decide (|d.getD 1 0 - r.dr.getD 1 0| < GEO_TOLERANCE) &&
  decide (|d.getD 2 0 - r.dr.getD 2 0| < GEO_TOLERANCE) &&
  decide (|d.getD 3 0 - r.dr.getD 3 0| < GEO_TOLERANCE)

/-- The cache scan of lines 104-114: linear, in insertion order, first match
wins, returning the record index. -/
def scanMatch (fn : String) (d : List ℚ) : List LeedPhase → Nat → Option Nat
  | [], _ => none
  | r :: rest, i => if matchesRec fn d r then some i else scanMatch fn d rest (i + 1)

/-- Path resolution of lines 85-95: a name starting with `/` is used
verbatim; otherwise `CLEED_PHASE` (the `env` argument) must be set and the
filename is `base ++ "/" ++ name ++ ".phs"`. -/
def resolveFilename (env : Option String) (name : String) : Except LeedError String :=
  if firstCharIs name '/' then .ok name
  else
    match env with
    | none => .error .configError
    | some base => .ok (base ++ "/" ++ name ++ ".phs")

/-- Model of `realloc` to `n` slots: the old contents survive up to `n`, new slots are
indeterminate (`blankSlot`). -/
def padTake (n : Nat) (l : List LeedPhase) : List LeedPhase :=
  l.take n ++ List.replicate (n - l.length) blankSlot

/-- Line 133: `for (i = 0; i <= 3; i++) phs_shifts->dr[i] = dr[i];`. -/
def drCopy (d : List ℚ) : List ℚ :=
  [d.getD 0 0, d.getD 1 0, d.getD 2 0, d.getD 3 0]

/-- The cache-miss append of lines 115-133 plus the record construction of
lines 152-247: increment `i_phase`; `malloc` 2 slots on the first call, else
`realloc` to `i_phase + 1` slots; write `I_END_OF_LIST` into the `lmax` field
of slot `i_phase`; build the new record (identity fields `input_file` and
`dr`, then the parsed data) in slot `i_phase - 1`.  (Line 130 of the C reads
`&p_phs_shifts[i_phase-1]`, understood as `*p_phs_shifts + i_phase - 1`,
i.e. slot `i_phase - 1` of the record array, as the matching scan of lines
104-114 and the surrounding code do.) -/
def appendState (st : PhaseState) (fn : String) (d : List ℚ) (pd : ParsedData) : PhaseState :=
  let ip := st.i_phase + 1
  let slots1 := if 0 < st.i_phase then padTake (ip + 1) st.slots else [blankSlot, blankSlot]
  let slots2 := slots1.set ip { slots1.getD ip blankSlot with lmax := I_END_OF_LIST }
  let newRec : LeedPhase :=
    { lmax := pd.lmax, input_file := fn, dr := drCopy d, n_eng := pd.n_eng,
      energy := pd.energy, pshift := pd.pshift,
      eng_min := pd.eng_min, eng_max := pd.eng_max }
  ⟨slots2.set (ip - 1) newRec, ip⟩

/-- The visible outcome of one successful `leed_inp_phase` call: the returned
index, the global state afterwards, the warnings emitted, and whether the
call parsed a file (cache miss) or not (cache hit). -/
structure PhsResult where
  index : Nat
  state : PhaseState
  warnings : List TruncWarning
  didParse : Bool
deriving DecidableEq

/-- Function `leed_inp_phase(phaseinp, dr, p_phs_shifts)`.  `env` is the value of the
environment variable `CLEED_PHASE`, `fs` is the filesystem.  Resolve the
filename; scan the existing records and return the first match; otherwise
open the file (failure is the fatal I/O error), parse it, and append the new
record, returning `i_phase - 1` = the state's previous `i_phase`. -/
def resolveOrLoad (env : Option String) (fs : String → Option (List String))
    (phaseinp : String) (d : List ℚ) (st : PhaseState) : Except LeedError PhsResult :=
  match resolveFilename env phaseinp with
  | .error e => .error e
  | .ok fn =>
    match scanMatch fn d (recordsOf st) 0 with
    | some i => .ok ⟨i, st, [], false⟩
    | none =>
      match fs fn with
      | none => .error (.ioError fn)
      | some lines =>
        match parseFile lines with
        | .error e => .error e
        | .ok pd => .ok ⟨st.i_phase, appendState st fn d pd, pd.warnings, true⟩

/-! ### Generic list helper lemmas -/

theorem getD_set_self {α : Type} (l : List α) (i : Nat) (v d : α) (h : i < l.length) :
    (l.set i v).getD i d = v := by
  induction l generalizing i with
  | nil => simp at h
  | cons a t ih =>
    cases i with
    | zero => rfl
    | succ n => simpa using ih n (by simpa using h)

theorem getD_set_ne {α : Type} (l : List α) (i j : Nat) (v d : α) (h : i ≠ j) :
    (l.set i v).getD j d = l.getD j d := by
  induction l generalizing i j with
  | nil => simp
  | cons a t ih =>
    cases i with
    | zero =>
      cases j with
      | zero => exact absurd rfl h
      | succ m => simp
    | succ n =>
      cases j with
      | zero => simp
      | succ m => simpa using ih n m (fun hc => h (by rw [hc]))

theorem getLastD_cons_cons {α : Type} (a b : α) (t : List α) (d : α) :
    (a :: b :: t).getLastD d = (b :: t).getLastD d := rfl

theorem getD_pred_eq_getLastD {α : Type} (l : List α) (d : α) (h : l ≠ []) :
    l.getD (l.length - 1) d = l.getLastD d := by
  induction l with
  | nil => exact absurd rfl h
  | cons a t ih =>
    cases t with
    | nil => rfl
    | cons b t2 =>
      have h2 : (a :: b :: t2).length - 1 = (b :: t2).length - 1 + 1 := by
        simp [List.length_cons]
      rw [h2, List.getD_cons_succ, ih (by simp), getLastD_cons_cons]

/-- Sequential writes `l[i] := vs[0], l[i+1] := vs[1], …`, as performed by the
energy-storing statements of the read loop. -/
def writeSeq : List ℚ → Nat → List ℚ → List ℚ
  | l, _, [] => l
  | l, i, v :: vs => writeSeq (l.set i v) (i + 1) vs

theorem length_writeSeq (vs : List ℚ) :
    ∀ (l : List ℚ) (i : Nat), (writeSeq l i vs).length = l.length := by
  induction vs with
  | nil => intro l i; rfl
  | cons v vs ih => intro l i; rw [writeSeq, ih]; simp

theorem getD_writeSeq_lt (vs : List ℚ) :
    ∀ (l : List ℚ) (i j : Nat), j < i → (writeSeq l i vs).getD j 0 = l.getD j 0 := by
  induction vs with
  | nil => intro l i j _; rfl
  | cons v vs ih =>
    intro l i j hj
    rw [writeSeq, ih _ _ _ (Nat.lt_succ_of_lt hj), getD_set_ne _ _ _ _ _ (by omega)]

theorem getD_writeSeq_in (vs : List ℚ) :
    ∀ (l : List ℚ) (i j : Nat), j < vs.length → i + vs.length ≤ l.length →
      (writeSeq l i vs).getD (i + j) 0 = vs.getD j 0 := by
  induction vs with
  | nil => intro l i j hj _; simp at hj
  | cons v vs ih =>
    intro l i j hj hlen
    cases j with
    | zero =>
      show (writeSeq l i (v :: vs)).getD i 0 = v
      rw [writeSeq, getD_writeSeq_lt vs _ _ _ (by omega)]
      rw [getD_set_self _ _ _ _ (by simp at hlen; omega)]
    | succ m =>
      have : i + (m + 1) = (i + 1) + m := by omega
      rw [writeSeq, this, ih _ _ _ (by simpa using hj) (by simp at hlen ⊢; omega)]
      simp

/-! ### Closed forms for the effect of the read loop -/

/-- Energies as stored: each raw value multiplied by the scale factor. -/
def scaleVals (scale : ℚ) (es : List ℚ) : List ℚ := es.map (fun v => v * scale)

/-- Value of `eng_min` after processing (scaled) energies `svs` starting at
index `i0`, given the previous value `em`: assigned only at index 0. -/
def eminAfter (i0 : Nat) (em : Option ℚ) (svs : List ℚ) : Option ℚ :=
  if i0 = 0 ∧ svs ≠ [] then some (svs.headD 0) else em

/-- Value of `eng_max` after processing (scaled) energies `svs` starting at
index `i0`, given the previous value `ex`: overwritten at every index ≥ 1. -/
def emaxAfter (i0 : Nat) (ex : Option ℚ) (svs : List ℚ) : Option ℚ :=
  if svs ≠ [] ∧ 2 ≤ i0 + svs.length then some (svs.getLastD 0) else ex

/-- Accumulated effect of the per-line tokenizer on the `pshift` array over a
sequence of (energy line, phase-shift line) pairs starting at energy index
`i0`. -/
def psFold (nl : Nat) : List (String × String) → Nat → List ℚ → List ℚ
  | [], _, ps => ps
  | pr :: rest, i0, ps => psFold nl rest (i0 + 1) (writePShifts pr.2.toList nl ps (i0 * nl))

/-- Interleave (energy line, phase-shift line) pairs into the line sequence
the read loop consumes. -/
def mkDataLines : List (String × String) → List String
  | [] => []
  | pr :: rest => pr.1 :: pr.2 :: mkDataLines rest

theorem readLoop_nil (scale : ℚ) (nEng nl i_eng : Nat) (energy pshift : List ℚ)
    (em ex : Option ℚ) :
    readLoop scale nEng nl [] i_eng energy pshift em ex =
      .ok (i_eng, energy, pshift, em, ex) := by
  rw [readLoop]
  split <;> rfl

theorem readLoop_cons_cons (scale : ℚ) (nEng nl i_eng : Nat) (el pl : String)
    (rest : List String) (energy pshift : List ℚ) (em ex : Option ℚ)
    (h : i_eng < nEng) :
    readLoop scale nEng nl (el :: pl :: rest) i_eng energy pshift em ex =
      readLoop scale nEng nl rest (i_eng + 1)
        (energy.set i_eng ((parseDouble el.toList).getD (energy.getD i_eng 0) * scale))
        (writePShifts pl.toList nl pshift (i_eng * nl))
        (if i_eng = 0 then some ((parseDouble el.toList).getD (energy.getD i_eng 0) * scale)
         else em)
        (if i_eng = 0 then ex
         else some ((parseDouble el.toList).getD (energy.getD i_eng 0) * scale)) := by
  rw [readLoop, if_pos h]

theorem readLoop_single_zero (scale : ℚ) (nEng nl : Nat) (el : String)
    (energy pshift : List ℚ) (em ex : Option ℚ) (h : 0 < nEng) :
    readLoop scale nEng nl [el] 0 energy pshift em ex = .error .oobRead := by
  rw [readLoop, if_pos h]
  rfl

theorem readLoop_single_pos (scale : ℚ) (nEng nl i_eng : Nat) (el : String)
    (energy pshift : List ℚ) (em ex : Option ℚ) (h : i_eng < nEng) (h0 : i_eng ≠ 0) :
    readLoop scale nEng nl [el] i_eng energy pshift em ex =
      .ok (i_eng,
        (energy.set i_eng ((parseDouble el.toList).getD (energy.getD i_eng 0) * scale)).set
          i_eng 0,
        pshift, em,
        some (((energy.set i_eng
            ((parseDouble el.toList).getD (energy.getD i_eng 0) * scale)).set
              i_eng 0).getD (i_eng - 1) 0)) := by
  rw [readLoop, if_pos h]
  simp only [if_neg h0]

theorem getLastD_singleton (a d : ℚ) : List.getLastD [a] d = a := rfl

theorem eminAfter_cons (i0 : Nat) (em : Option ℚ) (sv : ℚ) (svs : List ℚ) :
    eminAfter (i0 + 1) (if i0 = 0 then some sv else em) svs = eminAfter i0 em (sv :: svs) := by
  by_cases hi : i0 = 0
  · subst hi
    simp [eminAfter]
  · simp [eminAfter, hi]

theorem emaxAfter_cons (i0 : Nat) (ex : Option ℚ) (sv : ℚ) (svs : List ℚ) :
    emaxAfter (i0 + 1) (if i0 = 0 then ex else some sv) svs = emaxAfter i0 ex (sv :: svs) := by
  cases svs with
  | nil =>
    rw [emaxAfter, if_neg (by simp)]
    by_cases hi : i0 = 0
    · subst hi
      rw [if_pos rfl, emaxAfter, if_neg (by simp)]
    · rw [if_neg hi, emaxAfter,
        if_pos ⟨by simp, by simp only [List.length_singleton]; omega⟩, getLastD_singleton]
  | cons b t =>
    have hl1 : 2 ≤ i0 + 1 + (b :: t).length := by
      simp only [List.length_cons]
      omega
    have hl2 : 2 ≤ i0 + (sv :: b :: t).length := by
      simp only [List.length_cons]
      omega
    rw [emaxAfter, if_pos ⟨by simp, hl1⟩, emaxAfter, if_pos ⟨by simp, hl2⟩,
      getLastD_cons_cons]

/-- Sequencing lemma: the read loop consumes a block of complete
(energy line, phase-shift line) pairs whose energy lines all parse, and then
continues on the remaining lines with index, arrays and `eng_min`/`eng_max`
advanced by the closed forms above. -/
theorem readLoop_append (scale : ℚ) (nEng nl : Nat) (pairs : List (String × String))
    (es : List ℚ)
    (hp : List.Forall₂ (fun (pr : String × String) v => parseDouble pr.1.toList = some v)
      pairs es) :
    ∀ (tail : List String) (i0 : Nat) (energy pshift : List ℚ) (em ex : Option ℚ),
      i0 + pairs.length ≤ nEng →
      readLoop scale nEng nl (mkDataLines pairs ++ tail) i0 energy pshift em ex =
        readLoop scale nEng nl tail (i0 + pairs.length)
          (writeSeq energy i0 (scaleVals scale es))
          (psFold nl pairs i0 pshift)
          (eminAfter i0 em (scaleVals scale es))
          (emaxAfter i0 ex (scaleVals scale es)) := by
  induction hp with
  | nil =>
    intro tail i0 energy pshift em ex _
    simp [mkDataLines, scaleVals, writeSeq, psFold, eminAfter, emaxAfter]
  | @cons x v pr vs hx hrest ih =>
    intro tail i0 energy pshift em ex hle
    have hlt : i0 < nEng := by simp [List.length_cons] at hle; omega
    rw [show mkDataLines (x :: pr) ++ tail = x.1 :: x.2 :: (mkDataLines pr ++ tail) from rfl]
    rw [readLoop_cons_cons _ _ _ _ _ _ _ _ _ _ _ hlt, hx]
    simp only [Option.getD_some]
    rw [ih _ (i0 + 1) _ _ _ _ (by simp [List.length_cons] at hle ⊢; omega)]
    have hsv : scaleVals scale (v :: vs) = (v * scale) :: scaleVals scale vs := rfl
    rw [hsv]
    rw [show writeSeq energy i0 ((v * scale) :: scaleVals scale vs) =
      writeSeq (energy.set i0 (v * scale)) (i0 + 1) (scaleVals scale vs) from rfl]
    rw [show psFold nl (x :: pr) i0 pshift =
      psFold nl pr (i0 + 1) (writePShifts x.2.toList nl pshift (i0 * nl)) from rfl]
    rw [eminAfter_cons, emaxAfter_cons]
    have hidx : i0 + 1 + pr.length = i0 + (x :: pr).length := by simp; omega
    rw [hidx]

/-! ### Lemmas about the slot array and the cache scan -/

theorem padTake_nil (n : Nat) : padTake n [] = List.replicate n blankSlot := by
  simp [padTake]

theorem padTake_cons (m : Nat) (a : LeedPhase) (t : List LeedPhase) :
    padTake (m + 1) (a :: t) = a :: padTake m t := by
  simp [padTake, List.take_succ_cons, Nat.succ_sub_succ]

theorem length_padTake (n : Nat) (l : List LeedPhase) : (padTake n l).length = n := by
  simp [padTake]
  omega

theorem getD_replicate_blank (n j : Nat) :
    (List.replicate n blankSlot).getD j blankSlot = blankSlot := by
  induction n generalizing j with
  | zero => simp
  | succ m ih =>
    cases j with
    | zero => simp
    | succ k => simp only [List.replicate, List.getD_cons_succ]; exact ih k

theorem getD_padTake (n : Nat) (l : List LeedPhase) (j : Nat) (h : j < n) :
    (padTake n l).getD j blankSlot = l.getD j blankSlot := by
  induction l generalizing n j with
  | nil => rw [padTake_nil, getD_replicate_blank]; simp
  | cons a t ih =>
    cases n with
    | zero => omega
    | succ m =>
      rw [padTake_cons]
      cases j with
      | zero => rfl
      | succ k => simpa using ih m k (by omega)

theorem appendState_i_phase (st : PhaseState) (fn : String) (d : List ℚ) (pd : ParsedData) :
    (appendState st fn d pd).i_phase = st.i_phase + 1 := rfl

theorem appendState_slots_length (st : PhaseState) (fn : String) (d : List ℚ)
    (pd : ParsedData) : (appendState st fn d pd).slots.length = st.i_phase + 2 := by
  by_cases h0 : 0 < st.i_phase
  · simp [appendState, h0, length_padTake]
  · have hz : st.i_phase = 0 := by omega
    simp [appendState, hz]

theorem appendState_getD_lt (st : PhaseState) (fn : String) (d : List ℚ) (pd : ParsedData)
    (j : Nat) (h : j < st.i_phase) :
    (appendState st fn d pd).slots.getD j blankSlot = st.slots.getD j blankSlot := by
  have h0 : 0 < st.i_phase := by omega
  simp only [appendState, if_pos h0]
  rw [getD_set_ne _ _ _ _ _ (by omega), getD_set_ne _ _ _ _ _ (by omega),
    getD_padTake _ _ _ (by omega)]

/-- The record written by a cache miss, as a function of the identity fields
and the parsed data. -/
def mkRecord (fn : String) (d : List ℚ) (pd : ParsedData) : LeedPhase :=
  { lmax := pd.lmax, input_file := fn, dr := drCopy d, n_eng := pd.n_eng,
    energy := pd.energy, pshift := pd.pshift,
    eng_min := pd.eng_min, eng_max := pd.eng_max }

theorem appendState_getD_new (st : PhaseState) (fn : String) (d : List ℚ) (pd : ParsedData) :
    (appendState st fn d pd).slots.getD st.i_phase blankSlot = mkRecord fn d pd := by
  by_cases h0 : 0 < st.i_phase
  · simp only [appendState, if_pos h0, Nat.add_sub_cancel, mkRecord]
    rw [getD_set_self _ _ _ _ (by simp only [List.length_set, length_padTake]; omega)]
  · have hz : st.i_phase = 0 := by omega
    simp only [appendState, if_neg h0, hz, Nat.add_sub_cancel, mkRecord]
    rw [getD_set_self _ _ _ _ (by simp)]

theorem appendState_sentinel (st : PhaseState) (fn : String) (d : List ℚ) (pd : ParsedData) :
    ((appendState st fn d pd).slots.getD (st.i_phase + 1) blankSlot).lmax = I_END_OF_LIST := by
  by_cases h0 : 0 < st.i_phase
  · simp only [appendState, if_pos h0, Nat.add_sub_cancel]
    rw [getD_set_ne _ _ _ _ _ (by omega), getD_set_self]
    simp [length_padTake]
  · have hz : st.i_phase = 0 := by omega
    simp only [appendState, if_neg h0, hz, Nat.add_sub_cancel]
    rw [getD_set_ne _ _ _ _ _ (by omega), getD_set_self]
    simp

theorem scanMatch_none_iff (fn : String) (d : List ℚ) :
    ∀ (l : List LeedPhase) (i0 : Nat),
      scanMatch fn d l i0 = none ↔
        ∀ j, j < l.length → matchesRec fn d (l.getD j blankSlot) = false := by
  intro l
  induction l with
  | nil => intro i0; simp [scanMatch]
  | cons r rest ih =>
    intro i0
    rw [scanMatch]
    by_cases hr : matchesRec fn d r
    · simp only [if_pos hr]
      constructor
      · intro hc; exact absurd hc (by simp)
      · intro hall
        have := hall 0 (by simp)
        simp at this
        rw [hr] at this
        exact absurd this (by simp)
    · simp only [if_neg hr]
      rw [ih (i0 + 1)]
      constructor
      · intro hall j hj
        cases j with
        | zero => simpa using Bool.eq_false_iff.mpr hr
        | succ k => simpa using hall k (by simpa using hj)
      · intro hall j hj
        simpa using hall (j + 1) (by simpa using hj)

theorem scanMatch_some_iff (fn : String) (d : List ℚ) :
    ∀ (l : List LeedPhase) (i0 i : Nat),
      scanMatch fn d l i0 = some i ↔
        ∃ j, i = i0 + j ∧ j < l.length ∧ matchesRec fn d (l.getD j blankSlot) = true ∧
          ∀ j', j' < j → matchesRec fn d (l.getD j' blankSlot) = false := by
  intro l
  induction l with
  | nil => intro i0 i; simp [scanMatch]
  | cons r rest ih =>
    intro i0 i
    rw [scanMatch]
    by_cases hr : matchesRec fn d r
    · simp only [if_pos hr]
      constructor
      · intro hc
        refine ⟨0, by simpa using hc.symm, by simp, by simpa using hr, by omega⟩
      · rintro ⟨j, hij, hjl, hmj, hfirst⟩
        cases j with
        | zero => simp [hij]
        | succ k =>
          have := hfirst 0 (by omega)
          simp at this
          rw [hr] at this
          exact absurd this (by simp)
    · simp only [if_neg hr]
      rw [ih (i0 + 1) i]
      constructor
      · rintro ⟨j, hij, hjl, hmj, hfirst⟩
        refine ⟨j + 1, by omega, by simpa using hjl, by simpa using hmj, ?_⟩
        intro j' hj'
        cases j' with
        | zero => simpa using Bool.eq_false_iff.mpr hr
        | succ k => simpa using hfirst k (by omega)
      · rintro ⟨j, hij, hjl, hmj, hfirst⟩
        cases j with
        | zero =>
          simp at hmj
          rw [hmj] at hr
          exact absurd rfl hr
        | succ k =>
          refine ⟨k, by omega, by simpa using hjl, by simpa using hmj, ?_⟩
          intro j' hj'
          simpa using hfirst (j' + 1) (by omega)

/-- Inversion principle for a successful `resolveOrLoad` call: it is either a
cache hit (state unchanged, no parse, no warnings) or a cache miss that
parsed the file and appended one record. -/
theorem resolveOrLoad_ok_elim {env : Option String} {fs : String → Option (List String)}
    {p : String} {d : List ℚ} {st : PhaseState} {r : PhsResult}
    (h : resolveOrLoad env fs p d st = .ok r) :
    ∃ fn, resolveFilename env p = .ok fn ∧
      ((∃ i, scanMatch fn d (recordsOf st) 0 = some i ∧ r = ⟨i, st, [], false⟩) ∨
       (scanMatch fn d (recordsOf st) 0 = none ∧
        ∃ lines pd, fs fn = some lines ∧ parseFile lines = .ok pd ∧
          r = ⟨st.i_phase, appendState st fn d pd, pd.warnings, true⟩)) := by
  rw [resolveOrLoad] at h
  split at h
  next e heq => exact absurd h (by simp)
  next fn heq =>
  refine ⟨fn, heq, ?_⟩
  split at h
  next i hscan =>
    simp only [Except.ok.injEq] at h
    exact Or.inl ⟨i, hscan, h.symm⟩
  next hscan =>
  refine Or.inr ⟨hscan, ?_⟩
  split at h
  next hfs => exact absurd h (by simp)
  next lines hfs =>
  split at h
  next e hpf => exact absurd h (by simp)
  next pd hpf =>
  simp only [Except.ok.injEq] at h
  exact ⟨lines, pd, hfs, hpf, h.symm⟩

/-! ### Structured decimal strings and the column-skipping loops -/

/-- Character rendering of a digit sequence. -/
def digitsToChars (ds : List Nat) : List Char := ds.map (fun d => Char.ofNat (48 + d))

/-- Value of a decimal numeral with integer digits `ds` and fractional digits
`fr`. -/
def decVal (ds fr : List Nat) : ℚ :=
  (natOfDigits ds : ℚ) + (natOfDigits fr : ℚ) / 10 ^ fr.length

theorem digitChar_toNat (d : Nat) (h : d < 10) : (Char.ofNat (48 + d)).toNat = 48 + d := by
  interval_cases d <;> decide

theorem digitChar_isDigit (d : Nat) (h : d < 10) : isDigitC (Char.ofNat (48 + d)) = true := by
  interval_cases d <;> decide

theorem digitChar_not_WS (d : Nat) (h : d < 10) : isWS (Char.ofNat (48 + d)) = false := by
  interval_cases d <;> decide

theorem digitChar_ne_minus (d : Nat) (h : d < 10) : Char.ofNat (48 + d) ≠ '-' := by
  interval_cases d <;> decide

theorem digitChar_ne_plus (d : Nat) (h : d < 10) : Char.ofNat (48 + d) ≠ '+' := by
  interval_cases d <;> decide

/-- Characters produced by `digitsToChars` are never the space or minus
delimiters of the column-skipping loops. -/
def isSM (c : Char) : Bool := c = ' ' || c = '-'

theorem isSM_iff (c : Char) : isSM c = true ↔ (c = ' ' ∨ c = '-') := by
  simp [isSM]

theorem digitChar_not_SM (d : Nat) (h : d < 10) : isSM (Char.ofNat (48 + d)) = false := by
  interval_cases d <;> decide

theorem splitSign_minus (r : List Char) : splitSign ('-' :: r) = (-1, r) := by
  simp [splitSign]

theorem splitSign_other (c : Char) (r : List Char) (h1 : c ≠ '-') (h2 : c ≠ '+') :
    splitSign (c :: r) = (1, c :: r) := by
  simp [splitSign, h1, h2]

theorem afterDot_dot (r : List Char) : afterDot ('.' :: r) = takeDigits r := by
  simp [afterDot]

theorem expOf_nil : expOf [] = 0 := rfl

theorem expOf_other (c : Char) (cs : List Char) (h1 : c ≠ 'e') (h2 : c ≠ 'E') :
    expOf (c :: cs) = 0 := by
  simp [expOf, h1, h2]

theorem qpow10_zero : qpow10 0 = 1 := by simp [qpow10]

theorem takeDigits_append_stop (ds : List Nat) (h : ∀ d ∈ ds, d < 10) (c : Char)
    (hc : isDigitC c = false) (rest : List Char) :
    takeDigits (digitsToChars ds ++ c :: rest) = (ds, c :: rest) := by
  induction ds with
  | nil => simp [digitsToChars, takeDigits, hc]
  | cons d tl ih =>
    have hd : d < 10 := h d (by simp)
    rw [show digitsToChars (d :: tl) ++ c :: rest =
      Char.ofNat (48 + d) :: (digitsToChars tl ++ c :: rest) from rfl]
    rw [takeDigits, if_pos (digitChar_isDigit d hd), ih (fun x hx => h x (by simp [hx]))]
    simp [digitChar_toNat d hd]

theorem takeDigits_digits (ds : List Nat) (h : ∀ d ∈ ds, d < 10) :
    takeDigits (digitsToChars ds) = (ds, []) := by
  induction ds with
  | nil => simp [digitsToChars, takeDigits]
  | cons d tl ih =>
    have hd : d < 10 := h d (by simp)
    rw [show digitsToChars (d :: tl) = Char.ofNat (48 + d) :: digitsToChars tl from rfl]
    rw [takeDigits, if_pos (digitChar_isDigit d hd), ih (fun x hx => h x (by simp [hx]))]
    simp [digitChar_toNat d hd]

/-- Parsing a decimal numeral followed by a non-digit, non-exponent stop
character (or end of buffer). -/
theorem parseDouble_decimal (a fr : List Nat) (ha : a ≠ []) (hda : ∀ d ∈ a, d < 10)
    (hdf : ∀ d ∈ fr, d < 10) (rest : List Char)
    (hr : rest = [] ∨ ∃ c cs, rest = c :: cs ∧ isDigitC c = false ∧ c ≠ 'e' ∧ c ≠ 'E') :
    parseDouble (digitsToChars a ++ '.' :: (digitsToChars fr ++ rest)) =
      some (decVal a fr) := by
  obtain ⟨a0, a', rfl⟩ : ∃ a0 a', a = a0 :: a' := by
    cases a with
    | nil => exact absurd rfl ha
    | cons x t => exact ⟨x, t, rfl⟩
  have ha0 : a0 < 10 := hda a0 (by simp)
  have hcons : digitsToChars (a0 :: a') ++ '.' :: (digitsToChars fr ++ rest) =
      Char.ofNat (48 + a0) :: (digitsToChars a' ++ '.' :: (digitsToChars fr ++ rest)) := rfl
  have hfd : takeDigits (digitsToChars fr ++ rest) = (fr, rest) := by
    rcases hr with hnil | ⟨c, cs, hrc, hcd, _, _⟩
    · rw [hnil, List.append_nil]
      exact takeDigits_digits fr hdf
    · rw [hrc]
      exact takeDigits_append_stop fr hdf c hcd cs
  have hexp : expOf rest = 0 := by
    rcases hr with hnil | ⟨c, cs, hrc, _, hce, hcE⟩
    · rw [hnil, expOf_nil]
    · rw [hrc]
      exact expOf_other c cs hce hcE
  rw [parseDouble, hcons]
  rw [List.dropWhile_cons, digitChar_not_WS a0 ha0]
  simp only [Bool.false_eq_true, if_false]
  rw [splitSign_other _ _ (digitChar_ne_minus a0 ha0) (digitChar_ne_plus a0 ha0)]
  rw [show (((1 : ℚ), Char.ofNat (48 + a0) ::
      (digitsToChars a' ++ '.' :: (digitsToChars fr ++ rest)))).2 =
    digitsToChars (a0 :: a') ++ '.' :: (digitsToChars fr ++ rest) from rfl]
  rw [takeDigits_append_stop (a0 :: a') hda '.' (by decide) (digitsToChars fr ++ rest)]
  simp only [afterDot_dot, hfd, hexp, qpow10_zero]
  rw [if_neg (by simp)]
  rw [decVal]
  ring_nf

/-- Parsing a minus sign followed by a decimal numeral at the end of the
buffer. -/
theorem parseDouble_neg_decimal (a fr : List Nat) (ha : a ≠ []) (hda : ∀ d ∈ a, d < 10)
    (hdf : ∀ d ∈ fr, d < 10) :
    parseDouble ('-' :: (digitsToChars a ++ '.' :: digitsToChars fr)) =
      some (-decVal a fr) := by
  have hne : a ≠ [] := ha
  have hfd : takeDigits (digitsToChars fr) = (fr, []) := takeDigits_digits fr hdf
  rw [parseDouble]
  rw [List.dropWhile_cons]
  simp only [show isWS '-' = false from rfl, Bool.false_eq_true, if_false]
  rw [splitSign_minus]
  rw [show ((((-1 : ℚ)), digitsToChars a ++ '.' :: digitsToChars fr)).2 =
    digitsToChars a ++ '.' :: digitsToChars fr from rfl]
  rw [takeDigits_append_stop a hda '.' (by decide) (digitsToChars fr)]
  simp only [afterDot_dot, hfd, expOf_nil, qpow10_zero]
  rw [if_neg (by simp [hne])]
  rw [decVal]
  ring_nf

theorem takeWhile_all_append (p : Char → Bool) (l1 l2 : List Char)
    (h : ∀ c ∈ l1, p c = true) :
    (l1 ++ l2).takeWhile p = l1 ++ l2.takeWhile p := by
  induction l1 with
  | nil => simp
  | cons c t ih =>
    rw [List.cons_append, List.takeWhile_cons, h c (by simp), ih (fun x hx => h x (by simp [hx]))]
    simp

theorem takeWhile_stop (p : Char → Bool) (c : Char) (l : List Char) (h : p c = false) :
    (c :: l).takeWhile p = [] := by
  rw [List.takeWhile_cons, h]
  simp

/-- The space/minus skipping loop advances exactly over the leading run of
spaces and minus signs of the remaining buffer. -/
theorem skipSM_spec (cs : List Char) (i : Nat) :
    skipSM cs i = i + ((cs.drop i).takeWhile isSM).length := by
  have main : ∀ (n : Nat) (j : Nat), cs.length - j ≤ n →
      skipSM cs j = j + ((cs.drop j).takeWhile isSM).length := by
    intro n
    induction n with
    | zero =>
      intro j hj
      have hle : cs.length ≤ j := by omega
      rw [skipSM, dif_neg (by omega), List.drop_of_length_le hle]
      simp
    | succ m ih =>
      intro j hj
      by_cases hlt : j < cs.length
      · rw [skipSM, dif_pos hlt]
        rw [List.drop_eq_getElem_cons hlt]
        by_cases hsm : cs.get ⟨j, hlt⟩ = ' ' ∨ cs.get ⟨j, hlt⟩ = '-'
        · rw [if_pos hsm, ih j.succ (by omega)]
          have hb : isSM cs[j] = true := by
            rw [isSM_iff]
            simpa [List.get_eq_getElem] using hsm
          rw [List.takeWhile_cons, hb]
          simp [Nat.succ_eq_add_one]
          omega
        · rw [if_neg hsm]
          have hb : isSM cs[j] = false := by
            rw [Bool.eq_false_iff]
            intro hc
            exact hsm (by simpa [List.get_eq_getElem] using (isSM_iff _).mp hc)
          rw [takeWhile_stop _ _ _ hb]
          simp
      · rw [skipSM, dif_neg hlt, List.drop_of_length_le (by omega)]
        simp
  exact main (cs.length - i) i (le_refl _)

/-- The non-space/non-minus skipping loop advances exactly over the leading
run of other characters of the remaining buffer. -/
theorem skipNSM_spec (cs : List Char) (i : Nat) :
    skipNSM cs i = i + ((cs.drop i).takeWhile (fun c => !isSM c)).length := by
  have main : ∀ (n : Nat) (j : Nat), cs.length - j ≤ n →
      skipNSM cs j = j + ((cs.drop j).takeWhile (fun c => !isSM c)).length := by
    intro n
    induction n with
    | zero =>
      intro j hj
      have hle : cs.length ≤ j := by omega
      rw [skipNSM, dif_neg (by omega), List.drop_of_length_le hle]
      simp
    | succ m ih =>
      intro j hj
      by_cases hlt : j < cs.length
      · rw [skipNSM, dif_pos hlt]
        rw [List.drop_eq_getElem_cons hlt]
        by_cases hsm : cs.get ⟨j, hlt⟩ = ' ' ∨ cs.get ⟨j, hlt⟩ = '-'
        · rw [if_pos hsm]
          have hb : isSM cs[j] = true := by
            rw [isSM_iff]
            simpa [List.get_eq_getElem] using hsm
          rw [takeWhile_stop _ _ _ (by simp [hb])]
          simp
        · rw [if_neg hsm, ih j.succ (by omega)]
          have hb : isSM cs[j] = false := by
            rw [Bool.eq_false_iff]
            intro hc
            exact hsm (by simpa [List.get_eq_getElem] using (isSM_iff _).mp hc)
          rw [List.takeWhile_cons]
          simp only [hb, Bool.not_false, if_true]
          simp [Nat.succ_eq_add_one]
          omega
      · rw [skipNSM, dif_neg hlt, List.drop_of_length_le (by omega)]
        simp
  exact main (cs.length - i) i (le_refl _)

theorem writePShiftsGo_step (cs : List Char) (nl base i_str i : Nat) (ps : List ℚ)
    (h : i < nl) :
    writePShiftsGo cs nl base i_str i ps =
      writePShiftsGo cs nl base (skipNSM cs (skipSM cs i_str)) (i + 1)
        (ps.set (base + i) ((parseDouble (cs.drop i_str)).getD (ps.getD (base + i) 0))) := by
  rw [writePShiftsGo, if_pos h]

theorem writePShiftsGo_stop (cs : List Char) (nl base i_str i : Nat) (ps : List ℚ)
    (h : ¬ i < nl) :
    writePShiftsGo cs nl base i_str i ps = ps := by
  rw [writePShiftsGo, if_neg h]

/-- C4: for every phase-shift line consisting of two adjacent decimal
numerals with no separating whitespace where the second is negative (first
numeral `a.f1`, immediately followed by `-b.f2`), the tokenizer of lines
225-238, asked for `channelCount = 2` values, yields exactly the two values
`a.f1` and `-b.f2`: after reading each value it first skips contiguous spaces
and minus signs, then skips contiguous non-space/non-minus characters. -/
theorem claim4_packed_tokenizer (a f1 b f2 : List Nat) (x y : ℚ)
    (ha : a ≠ []) (hb : b ≠ [])
    (hda : ∀ d ∈ a, d < 10) (hdf1 : ∀ d ∈ f1, d < 10)
    (hdb : ∀ d ∈ b, d < 10) (hdf2 : ∀ d ∈ f2, d < 10) :
    writePShifts (digitsToChars a ++ '.' :: (digitsToChars f1 ++
        '-' :: (digitsToChars b ++ '.' :: digitsToChars f2))) 2 [x, y] 0 =
      [decVal a f1, -decVal b f2] := by
  obtain ⟨a0, a', rfl⟩ : ∃ a0 a', a = a0 :: a' := by
    cases a with
    | nil => exact absurd rfl ha
    | cons u t => exact ⟨u, t, rfl⟩
  have ha0 : a0 < 10 := hda a0 (by simp)
  have hL : digitsToChars (a0 :: a') ++ '.' :: (digitsToChars f1 ++
      '-' :: (digitsToChars b ++ '.' :: digitsToChars f2)) =
      (digitsToChars (a0 :: a') ++ '.' :: digitsToChars f1) ++
        '-' :: (digitsToChars b ++ '.' :: digitsToChars f2) := by
    simp
  have h1 : parseDouble ((digitsToChars (a0 :: a') ++ '.' :: digitsToChars f1) ++
      '-' :: (digitsToChars b ++ '.' :: digitsToChars f2)) = some (decVal (a0 :: a') f1) := by
    rw [← hL]
    exact parseDouble_decimal (a0 :: a') f1 ha hda hdf1 _
      (Or.inr ⟨'-', _, rfl, by decide, by decide, by decide⟩)
  have h2 : parseDouble ('-' :: (digitsToChars b ++ '.' :: digitsToChars f2)) =
      some (-decVal b f2) := parseDouble_neg_decimal b f2 hb hdb hdf2
  have hallA : ∀ c ∈ digitsToChars (a0 :: a') ++ '.' :: digitsToChars f1,
      (!isSM c) = true := by
    intro c hc
    simp only [List.mem_append, List.mem_cons] at hc
    rcases hc with hc | hc | hc
    · obtain ⟨d, hd, rfl⟩ := List.mem_map.mp hc
      simp [digitChar_not_SM d (hda d hd)]
    · rw [hc]
      decide
    · obtain ⟨d, hd, rfl⟩ := List.mem_map.mp hc
      simp [digitChar_not_SM d (hdf1 d hd)]
  have hsm0 : skipSM ((digitsToChars (a0 :: a') ++ '.' :: digitsToChars f1) ++
      '-' :: (digitsToChars b ++ '.' :: digitsToChars f2)) 0 = 0 := by
    rw [skipSM_spec, List.drop_zero]
    rw [show (digitsToChars (a0 :: a') ++ '.' :: digitsToChars f1) ++
        '-' :: (digitsToChars b ++ '.' :: digitsToChars f2) =
      Char.ofNat (48 + a0) :: (digitsToChars a' ++ '.' :: digitsToChars f1 ++
        '-' :: (digitsToChars b ++ '.' :: digitsToChars f2)) from rfl]
    rw [takeWhile_stop _ _ _ (digitChar_not_SM a0 ha0)]
    rfl
  have hnsm0 : skipNSM ((digitsToChars (a0 :: a') ++ '.' :: digitsToChars f1) ++
      '-' :: (digitsToChars b ++ '.' :: digitsToChars f2)) 0 =
      (digitsToChars (a0 :: a') ++ '.' :: digitsToChars f1).length := by
    rw [skipNSM_spec, List.drop_zero]
    rw [takeWhile_all_append _ _ _ hallA]
    rw [takeWhile_stop _ _ _ (by decide)]
    simp
  have hdropm : ((digitsToChars (a0 :: a') ++ '.' :: digitsToChars f1) ++
      '-' :: (digitsToChars b ++ '.' :: digitsToChars f2)).drop
        (digitsToChars (a0 :: a') ++ '.' :: digitsToChars f1).length =
      '-' :: (digitsToChars b ++ '.' :: digitsToChars f2) := List.drop_left _ _
  rw [hL, writePShifts]
  rw [writePShiftsGo_step _ _ _ _ _ _ (by norm_num)]
  rw [List.drop_zero, h1, Option.getD_some, hsm0, hnsm0]
  rw [writePShiftsGo_step _ _ _ _ _ _ (by norm_num)]
  rw [hdropm, h2, Option.getD_some]
  rw [writePShiftsGo_stop _ _ _ _ _ _ (by norm_num)]
  simp

/-- Witness: the claim's own example line `1.2345-2.3456` with
`channelCount = 2` yields exactly `1.2345` and `-2.3456`. -/
theorem claim4_witness :
    writePShifts ("1.2345-2.3456".toList) 2 [0, 0] 0 =
      [12345 / 10000, -(23456 / 10000)] := by
  have h := claim4_packed_tokenizer [1] [2, 3, 4, 5] [2] [3, 4, 5, 6] 0 0
    (by decide) (by decide) (by decide) (by decide) (by decide) (by decide)
  have hs : "1.2345-2.3456".toList =
      digitsToChars [1] ++ '.' :: (digitsToChars [2, 3, 4, 5] ++
        '-' :: (digitsToChars [2] ++ '.' :: digitsToChars [3, 4, 5, 6])) := by decide
  rw [hs, h]
  have e1 : natOfDigits [1] = 1 := rfl
  have e2 : natOfDigits [2, 3, 4, 5] = 2345 := rfl
  have e3 : natOfDigits [2] = 2 := rfl
  have e4 : natOfDigits [3, 4, 5, 6] = 3456 := rfl
  simp only [decVal, e1, e2, e3, e4, List.length_cons, List.length_nil]
  norm_num

/-! ### Computation rules for `parseFile` -/

theorem parseFile_eq_ok (lines : List String) (header : String) (data : List String)
    (hd : List.dropWhile (fun l => firstCharIs l '#') lines = header :: data)
    (nZ lZ : Int) (tok : String) (hhdr : parseHeader header = some (nZ, lZ, tok))
    (i : Nat) (en ps : List ℚ) (em ex : Option ℚ)
    (hloop : readLoop (engScale tok) nZ.toNat (lZ + 1).toNat data 0
      (List.replicate nZ.toNat 0) (List.replicate (nZ.toNat * (lZ + 1).toNat) 0)
      none none = .ok (i, en, ps, em, ex)) :
    parseFile lines = .ok
      { lmax := lZ, n_eng := i, energy := en, pshift := ps, eng_min := em,
        eng_max := ex,
        warnings := if i = nZ.toNat then [] else [⟨nZ.toNat, i + 1⟩] } := by
  simp only [parseFile, hd, hhdr, hloop]

theorem readLoop_ok_of_pos (scale : ℚ) (nEng nl : Nat) :
    ∀ (n : Nat) (lines : List String), lines.length ≤ n →
      ∀ (i_eng : Nat) (energy pshift : List ℚ) (em ex : Option ℚ), 1 ≤ i_eng →
        ∃ out, readLoop scale nEng nl lines i_eng energy pshift em ex = .ok out := by
  intro n
  induction n with
  | zero =>
    intro lines hl i_eng energy pshift em ex hi
    have hnil : lines = [] := List.length_eq_zero.mp (by omega)
    subst hnil
    exact ⟨_, readLoop_nil _ _ _ _ _ _ _ _⟩
  | succ m ih =>
    intro lines hl i_eng energy pshift em ex hi
    cases lines with
    | nil => exact ⟨_, readLoop_nil _ _ _ _ _ _ _ _⟩
    | cons el rest =>
      cases rest with
      | nil =>
        by_cases hlt : i_eng < nEng
        · exact ⟨_, readLoop_single_pos _ _ _ _ _ _ _ _ _ hlt (by omega)⟩
        · exact ⟨_, by rw [readLoop, if_neg hlt]⟩
      | cons pl rest2 =>
        by_cases hlt : i_eng < nEng
        · obtain ⟨out, hout⟩ := ih rest2 (by simp at hl; omega) (i_eng + 1)
            (energy.set i_eng ((parseDouble el.toList).getD (energy.getD i_eng 0) * scale))
            (writePShifts pl.toList nl pshift (i_eng * nl))
            (if i_eng = 0 then
              some ((parseDouble el.toList).getD (energy.getD i_eng 0) * scale) else em)
            (if i_eng = 0 then ex
             else some ((parseDouble el.toList).getD (energy.getD i_eng 0) * scale))
            (by omega)
          exact ⟨out, by rw [readLoop_cons_cons _ _ _ _ _ _ _ _ _ _ _ hlt]; exact hout⟩
        · exact ⟨_, by rw [readLoop, if_neg hlt]⟩

theorem readLoop_ok_of_two (scale : ℚ) (nEng nl : Nat) (lines : List String)
    (h2 : 2 ≤ lines.length) (energy pshift : List ℚ) (em ex : Option ℚ) :
    ∃ out, readLoop scale nEng nl lines 0 energy pshift em ex = .ok out := by
  cases lines with
  | nil => simp at h2
  | cons el rest =>
    cases rest with
    | nil => simp at h2
    | cons pl rest2 =>
      by_cases hlt : 0 < nEng
      · rw [readLoop_cons_cons _ _ _ _ _ _ _ _ _ _ _ hlt]
        exact readLoop_ok_of_pos scale nEng nl rest2.length rest2 (le_refl _) 1 _ _ _ _
          (le_refl 1)
      · exact ⟨_, by rw [readLoop, if_neg hlt]⟩

/-- C10: the truncation branch of lines 239-244 reads `energy[i_eng - 1]`,
which is in bounds only when at least one complete energy/phase-shift pair
was read before the truncation.  Whenever at least two data lines follow the
header the access is safe (the model never reaches the out-of-bounds read),
and for the input whose header declares `3 1` followed by a single energy
line and end of file the read loop stops at `i_eng = 0` and the access is
out of bounds (index -1). -/
theorem claim10_truncation_read :
    (∀ (lines : List String) (header : String) (data : List String),
      List.dropWhile (fun l => firstCharIs l '#') lines = header :: data →
      2 ≤ data.length →
      parseFile lines ≠ .error .oobRead) ∧
    parseFile ["3 1", "1.0"] = .error .oobRead := by
  constructor
  · intro lines header data hd h2 hcontra
    simp only [parseFile, hd] at hcontra
    cases hph : parseHeader header with
    | none => simp [hph] at hcontra
    | some trip =>
      obtain ⟨nZ, lZ, tok⟩ := trip
      obtain ⟨out, hout⟩ := readLoop_ok_of_two (engScale tok) nZ.toNat (lZ + 1).toNat data
        h2 (List.replicate nZ.toNat 0) (List.replicate (nZ.toNat * (lZ + 1).toNat) 0)
        none none
      obtain ⟨i, en, ps, em, ex⟩ := out
      simp [hph, hout] at hcontra
  · have hd1 : "3 1".data = ['3', ' ', '1'] := by decide
    have hd2 : "1.0".data = ['1', '.', '0'] := by decide
    simp +decide [parseFile, parseHeader, parseIntTok, firstTok, engScale, firstCharIs,
      strncmp2, readLoop, parseDouble, takeDigits, afterDot, splitSign, expOf, qpow10,
      natOfDigits, isWS, isDigitC, List.dropWhile, HART, String.toList, hd1, hd2]

/-- Witness for C10: a file with two data lines after the header never
reaches the out-of-bounds truncation read. -/
theorem claim10_witness : parseFile ["2 0", "1", "2"] ≠ .error .oobRead :=
  claim10_truncation_read.1 ["2 0", "1", "2"] "2 0" ["1", "2"] (by decide) (by decide)

/-- C3 (amended): a file declaring 3 energies that supplies only 2 complete
energy/phase-shift line pairs parses without aborting into a record with
`n_eng = 2`, `eng_min` the first (scaled) energy and `eng_max` the second,
and a truncation warning is emitted carrying the expected count 3 and, as
the found count, `i_eng + 1 = 3` — one more than the number of energies
actually retained. -/
theorem claim3_amended (lines : List String) (header e1 p1 e2 p2 : String) (v1 v2 : ℚ)
    (lZ : Int) (tok : String)
    (hd : List.dropWhile (fun l => firstCharIs l '#') lines = [header, e1, p1, e2, p2])
    (hhdr : parseHeader header = some (3, lZ, tok))
    (h1 : parseDouble e1.toList = some v1)
    (h2 : parseDouble e2.toList = some v2) :
    ∃ pd, parseFile lines = .ok pd ∧ pd.n_eng = 2 ∧
      pd.eng_min = some (v1 * engScale tok) ∧
      pd.eng_max = some (v2 * engScale tok) ∧
      pd.warnings = [⟨3, 3⟩] := by
  have hF : List.Forall₂ (fun (pr : String × String) v => parseDouble pr.1.toList = some v)
      [(e1, p1), (e2, p2)] [v1, v2] :=
    List.Forall₂.cons h1 (List.Forall₂.cons h2 List.Forall₂.nil)
  have happ := readLoop_append (engScale tok) ((3 : Int).toNat) ((lZ + 1).toNat)
    [(e1, p1), (e2, p2)] [v1, v2] hF [] 0 (List.replicate (3 : Int).toNat 0)
    (List.replicate ((3 : Int).toNat * (lZ + 1).toNat) 0) none none (by simp)
  rw [show mkDataLines [(e1, p1), (e2, p2)] ++ ([] : List String) = [e1, p1, e2, p2] by
    simp [mkDataLines]] at happ
  rw [readLoop_nil] at happ
  refine ⟨_, parseFile_eq_ok lines header [e1, p1, e2, p2] hd 3 lZ tok hhdr (0 + 2)
    _ _ _ _ happ, ?_, ?_, ?_, ?_⟩
  · rfl
  · simp [eminAfter, scaleVals]
  · simp [emaxAfter, scaleVals, getLastD_cons_cons, getLastD_singleton]
  · simp

/-- Counterexample to C3 as stated: on a file declaring 3 energies with only
2 complete pairs, the emitted warning carries found count 3 (the value
`i_eng + 1` passed at line 275), which differs from the actual number 2 of
energies retained — the warning does not identify the found count. -/
theorem claim3_counterexample :
    parseFile ["3 1", "1", "0.1 0.2", "2", "0.3 0.4"] = .ok
      { lmax := 1, n_eng := 2, energy := [1, 2, 0],
        pshift := [1/10, 1/5, 3/10, 2/5, 0, 0], eng_min := some 1, eng_max := some 2,
        warnings := [⟨3, 3⟩] } ∧
    (⟨3, 3⟩ : TruncWarning).found ≠ 2 := by
  constructor
  · have ha : "3 1".data = ['3', ' ', '1'] := by decide
    have hb : "1".data = ['1'] := by decide
    have hc : "0.1 0.2".data = ['0', '.', '1', ' ', '0', '.', '2'] := by decide
    have he : "2".data = ['2'] := by decide
    have hf : "0.3 0.4".data = ['0', '.', '3', ' ', '0', '.', '4'] := by decide
    simp +decide [parseFile, parseHeader, parseIntTok, firstTok, engScale, firstCharIs,
      strncmp2, readLoop, writePShifts, writePShiftsGo, skipSM, skipNSM, parseDouble,
      takeDigits, afterDot, splitSign, expOf, qpow10, natOfDigits, isWS, isDigitC,
      List.dropWhile, HART, String.toList, ha, hb, hc, he, hf]
    norm_num
  · decide

/-- Witness for the amended C3 at a concrete truncated file. -/
theorem claim3_witness :
    (parseFile ["3 1", "1", "0.1 0.2", "2", "0.3 0.4"]).map
        (fun pd => (pd.n_eng, pd.eng_min, pd.eng_max, pd.warnings)) =
      .ok (2, some (1 * engScale ""), some (2 * engScale ""), [⟨3, 3⟩]) := by
  have hb : "1".data = ['1'] := by decide
  have he : "2".data = ['2'] := by decide
  have h1 : parseDouble ("1".toList) = some 1 := by
    simp +decide [parseDouble, takeDigits, afterDot, splitSign, expOf, qpow10,
      natOfDigits, isWS, isDigitC, List.dropWhile, String.toList, hb]
  have h2 : parseDouble ("2".toList) = some 2 := by
    simp +decide [parseDouble, takeDigits, afterDot, splitSign, expOf, qpow10,
      natOfDigits, isWS, isDigitC, List.dropWhile, String.toList, he]
  obtain ⟨pd, hpf, hn, hmin, hmax, hw⟩ := claim3_amended
    ["3 1", "1", "0.1 0.2", "2", "0.3 0.4"] "3 1" "1" "0.1 0.2" "2" "0.3 0.4" 1 2 1 ""
    (by decide) (by decide) h1 h2
  rw [hpf]
  simp [Except.map, hn, hmin, hmax, hw]

theorem getD_scaleVals (s : ℚ) (es : List ℚ) (j : Nat) (h : j < es.length) :
    (scaleVals s es).getD j 0 = es.getD j 0 * s := by
  induction es generalizing j with
  | nil => simp at h
  | cons v vs ih =>
    cases j with
    | zero => simp [scaleVals]
    | succ k => simpa [scaleVals] using ih k (by simpa using h)

/-- C2 (amended): the energy scale factor is selected by comparing the first
two characters of the unit token against exactly the spellings `eV`, `EV`
(scale 1/27.18), `Ry`, `RY` (scale 2/27.18); only the first two characters
are significant, the comparison is case-sensitive in the remaining character
case patterns (`ev` and `Ev` give scale 1), an absent token (modelled as the
untouched empty buffer) gives scale 1, and every stored energy equals the
raw parsed value multiplied by this scale. -/
theorem claim2_amended :
    (∀ (lines : List String) (header : String) (pairs : List (String × String))
        (es : List ℚ) (nZ lZ : Int) (tok : String),
      List.dropWhile (fun l => firstCharIs l '#') lines = header :: mkDataLines pairs →
      parseHeader header = some (nZ, lZ, tok) →
      List.Forall₂ (fun (pr : String × String) v => parseDouble pr.1.toList = some v)
        pairs es →
      pairs.length ≤ nZ.toNat →
      ∃ pd, parseFile lines = .ok pd ∧
        ∀ j, j < es.length → pd.energy.getD j 0 = es.getD j 0 * engScale tok) ∧
    (∀ rest : List Char, engScale (String.mk ('e' :: 'V' :: rest)) = 1 / HART) ∧
    (∀ rest : List Char, engScale (String.mk ('E' :: 'V' :: rest)) = 1 / HART) ∧
    (∀ rest : List Char, engScale (String.mk ('R' :: 'y' :: rest)) = 2 / HART) ∧
    (∀ rest : List Char, engScale (String.mk ('R' :: 'Y' :: rest)) = 2 / HART) ∧
    engScale ("") = 1 ∧ engScale ("ev") = 1 ∧ engScale ("Ev") = 1 := by
  refine ⟨?_, ?_, ?_, ?_, ?_, by decide, by decide, by decide⟩
  · intro lines header pairs es nZ lZ tok hd hhdr hF hlen
    have hlen2 : es.length = pairs.length := (List.Forall₂.length_eq hF).symm
    have happ := readLoop_append (engScale tok) nZ.toNat ((lZ + 1).toNat)
      pairs es hF [] 0 (List.replicate nZ.toNat 0)
      (List.replicate (nZ.toNat * (lZ + 1).toNat) 0) none none (by omega)
    rw [List.append_nil, readLoop_nil] at happ
    refine ⟨_, parseFile_eq_ok lines header (mkDataLines pairs) hd nZ lZ tok hhdr
      (0 + pairs.length) _ _ _ _ happ, ?_⟩
    intro j hj
    have hb1 : j < (scaleVals (engScale tok) es).length := by
      simp [scaleVals]
      omega
    have hb2 : (0 : Nat) + (scaleVals (engScale tok) es).length ≤
        (List.replicate nZ.toNat (0 : ℚ)).length := by
      simp [scaleVals]
      omega
    have := getD_writeSeq_in (scaleVals (engScale tok) es)
      (List.replicate nZ.toNat 0) 0 j hb1 hb2
    simp only [Nat.zero_add] at this
    simp only [this]
    exact getD_scaleVals _ _ _ hj
  · intro rest
    simp [engScale, strncmp2]
  · intro rest
    simp [engScale, strncmp2]
  · intro rest
    simp [engScale, strncmp2]
  · intro rest
    simp [engScale, strncmp2]

/-- Counterexample to C2 as stated: the comparison is not case-insensitive.
The all-lowercase token `ev` begins, case-insensitively, with `eV`, so the
claim requires scale 1/27.18 and stored energy 2·(1/27.18); the code's
`strncmp` matches neither `eV` nor `EV`, keeps scale 1, and stores 2. -/
theorem claim2_counterexample :
    parseFile ["1 0 ev", "2", "5"] = .ok
      { lmax := 0, n_eng := 1, energy := [2], pshift := [5], eng_min := some 2,
        eng_max := none, warnings := [] } ∧
    (2 : ℚ) ≠ 2 * (1 / HART) := by
  constructor
  · have ha : "1 0 ev".data = ['1', ' ', '0', ' ', 'e', 'v'] := by decide
    have hb : "2".data = ['2'] := by decide
    have hc : "5".data = ['5'] := by decide
    simp +decide [parseFile, parseHeader, parseIntTok, firstTok, engScale, firstCharIs,
      strncmp2, readLoop, writePShifts, writePShiftsGo, skipSM, skipNSM, parseDouble,
      takeDigits, afterDot, splitSign, expOf, qpow10, natOfDigits, isWS, isDigitC,
      List.dropWhile, HART, String.toList, ha, hb, hc]
  · norm_num [HART]

/-- Witness for the amended C2: a file with unit token `Ry` stores each raw
energy multiplied by 2/27.18. -/
theorem claim2_witness :
    (parseFile ["1 0 Ry", "2", "5"]).map (fun pd => pd.energy.getD 0 0) =
      .ok (2 * engScale ("Ry")) ∧ engScale ("Ry") = 2 / HART := by
  have hb : "2".data = ['2'] := by decide
  have h1 : parseDouble ("2".toList) = some 2 := by
    simp +decide [parseDouble, takeDigits, afterDot, splitSign, expOf, qpow10,
      natOfDigits, isWS, isDigitC, List.dropWhile, String.toList, hb]
  have hF : List.Forall₂ (fun (pr : String × String) v => parseDouble pr.1.toList = some v)
      [("2", "5")] [2] := List.Forall₂.cons h1 List.Forall₂.nil
  obtain ⟨pd, hpf, hen⟩ := claim2_amended.1 ["1 0 Ry", "2", "5"] "1 0 Ry" [("2", "5")]
    [2] 1 0 "Ry" (by decide) (by decide) hF (by decide)
  constructor
  · rw [hpf]
    simp only [Except.map]
    rw [hen 0 (by decide)]
    rfl
  · have hry : ("Ry" : String) = String.mk ['R', 'y'] := by decide
    rw [hry]
    exact claim2_amended.2.2.2.1 []

theorem engScale_pos (tok : String) : 0 < engScale tok := by
  rw [engScale]
  split
  · norm_num [HART]
  · split
    · norm_num [HART]
    · norm_num

theorem headD_scaleVals (s : ℚ) (es : List ℚ) (h : es ≠ []) :
    (scaleVals s es).headD 0 = es.headD 0 * s := by
  cases es with
  | nil => exact absurd rfl h
  | cons v vs => rfl

theorem getLastD_scaleVals (s : ℚ) (es : List ℚ) (h : es ≠ []) :
    (scaleVals s es).getLastD 0 = es.getLastD 0 * s := by
  induction es with
  | nil => exact absurd rfl h
  | cons v vs ih =>
    cases vs with
    | nil => rfl
    | cons b t =>
      rw [show scaleVals s (v :: b :: t) = (v * s) :: scaleVals s (b :: t) from rfl]
      rw [show scaleVals s (b :: t) = (b * s) :: scaleVals s t from rfl]
      rw [getLastD_cons_cons]
      rw [show (b * s) :: scaleVals s t = scaleVals s (b :: t) from rfl]
      rw [ih (by simp), getLastD_cons_cons]

/-- C5: eng_min / eng_max bookkeeping.  Part 1: on a file whose data lines
are complete pairs with at least 2 of them (within the declared count),
`eng_min` is exactly the scaled energy at index 0 and `eng_max` ends up equal
to the last successfully read scaled energy.  Part 2: consequently, for a
file whose last energy is smaller than its first, `eng_max < eng_min` — no
min/max comparison is performed.  Part 3: if the loop terminates early
because the phase-shift line after the last energy line is missing,
`eng_max` is set to the energy at the last fully-completed index (not the
zeroed entry). -/
theorem claim5_minmax :
    (∀ (lines : List String) (header : String) (pairs : List (String × String))
        (es : List ℚ) (nZ lZ : Int) (tok : String),
      List.dropWhile (fun l => firstCharIs l '#') lines = header :: mkDataLines pairs →
      parseHeader header = some (nZ, lZ, tok) →
      List.Forall₂ (fun (pr : String × String) v => parseDouble pr.1.toList = some v)
        pairs es →
      pairs.length ≤ nZ.toNat → 2 ≤ pairs.length →
      ∃ pd, parseFile lines = .ok pd ∧
        pd.eng_min = some (es.headD 0 * engScale tok) ∧
        pd.eng_max = some (es.getLastD 0 * engScale tok)) ∧
    (∀ (lines : List String) (header : String) (pairs : List (String × String))
        (es : List ℚ) (nZ lZ : Int) (tok : String),
      List.dropWhile (fun l => firstCharIs l '#') lines = header :: mkDataLines pairs →
      parseHeader header = some (nZ, lZ, tok) →
      List.Forall₂ (fun (pr : String × String) v => parseDouble pr.1.toList = some v)
        pairs es →
      pairs.length ≤ nZ.toNat → 2 ≤ pairs.length →
      es.getLastD 0 < es.headD 0 →
      ∃ pd a b, parseFile lines = .ok pd ∧
        pd.eng_min = some a ∧ pd.eng_max = some b ∧ b < a) ∧
    (∀ (lines : List String) (header : String) (pairs : List (String × String))
        (es : List ℚ) (ef : String) (vf : ℚ) (nZ lZ : Int) (tok : String),
      List.dropWhile (fun l => firstCharIs l '#') lines =
        header :: (mkDataLines pairs ++ [ef]) →
      parseHeader header = some (nZ, lZ, tok) →
      List.Forall₂ (fun (pr : String × String) v => parseDouble pr.1.toList = some v)
        pairs es →
      parseDouble ef.toList = some vf →
      1 ≤ pairs.length → pairs.length + 1 ≤ nZ.toNat →
      ∃ pd, parseFile lines = .ok pd ∧ pd.n_eng = pairs.length ∧
        pd.eng_min = some (es.headD 0 * engScale tok) ∧
        pd.eng_max = some (es.getLastD 0 * engScale tok)) := by
  have part1 : ∀ (lines : List String) (header : String) (pairs : List (String × String))
      (es : List ℚ) (nZ lZ : Int) (tok : String),
      List.dropWhile (fun l => firstCharIs l '#') lines = header :: mkDataLines pairs →
      parseHeader header = some (nZ, lZ, tok) →
      List.Forall₂ (fun (pr : String × String) v => parseDouble pr.1.toList = some v)
        pairs es →
      pairs.length ≤ nZ.toNat → 2 ≤ pairs.length →
      ∃ pd, parseFile lines = .ok pd ∧
        pd.eng_min = some (es.headD 0 * engScale tok) ∧
        pd.eng_max = some (es.getLastD 0 * engScale tok) := by
    intro lines header pairs es nZ lZ tok hd hhdr hF hlen h2
    have hlen2 : es.length = pairs.length := (List.Forall₂.length_eq hF).symm
    have hne : es ≠ [] := by
      intro hc
      rw [hc] at hlen2
      simp at hlen2
      omega
    have happ := readLoop_append (engScale tok) nZ.toNat ((lZ + 1).toNat)
      pairs es hF [] 0 (List.replicate nZ.toNat 0)
      (List.replicate (nZ.toNat * (lZ + 1).toNat) 0) none none (by omega)
    rw [List.append_nil, readLoop_nil] at happ
    refine ⟨_, parseFile_eq_ok lines header (mkDataLines pairs) hd nZ lZ tok hhdr
      (0 + pairs.length) _ _ _ _ happ, ?_, ?_⟩
    · show eminAfter 0 none (scaleVals (engScale tok) es) = some (es.headD 0 * engScale tok)
      rw [eminAfter, if_pos ⟨rfl, by simp [scaleVals, hne]⟩, headD_scaleVals _ _ hne]
    · show emaxAfter 0 none (scaleVals (engScale tok) es) =
        some (es.getLastD 0 * engScale tok)
      rw [emaxAfter, if_pos ⟨by simp [scaleVals, hne], by simp [scaleVals]; omega⟩,
        getLastD_scaleVals _ _ hne]
  refine ⟨part1, ?_, ?_⟩
  · intro lines header pairs es nZ lZ tok hd hhdr hF hlen h2 hdec
    obtain ⟨pd, hpf, hmin, hmax⟩ := part1 lines header pairs es nZ lZ tok hd hhdr hF hlen h2
    exact ⟨pd, _, _, hpf, hmin, hmax,
      mul_lt_mul_of_pos_right hdec (engScale_pos tok)⟩
  · intro lines header pairs es ef vf nZ lZ tok hd hhdr hF hef hlen1 hlen2
    have hlene : es.length = pairs.length := (List.Forall₂.length_eq hF).symm
    have hne : es ≠ [] := by
      intro hc
      rw [hc] at hlene
      simp at hlene
      omega
    have happ := readLoop_append (engScale tok) nZ.toNat ((lZ + 1).toNat)
      pairs es hF [ef] 0 (List.replicate nZ.toNat 0)
      (List.replicate (nZ.toNat * (lZ + 1).toNat) 0) none none (by omega)
    rw [readLoop_single_pos _ _ _ _ _ _ _ _ _ (by omega) (by omega)] at happ
    refine ⟨_, parseFile_eq_ok lines header (mkDataLines pairs ++ [ef]) hd nZ lZ tok hhdr
      (0 + pairs.length) _ _ _ _ happ, by simp, ?_, ?_⟩
    · show eminAfter 0 none (scaleVals (engScale tok) es) = some (es.headD 0 * engScale tok)
      rw [eminAfter, if_pos ⟨rfl, by simp [scaleVals, hne]⟩, headD_scaleVals _ _ hne]
    · have hb1 : (0 + pairs.length) - 1 ≠ 0 + pairs.length := by omega
      rw [getD_set_ne _ _ _ _ _ (by omega)]
      rw [getD_set_ne _ _ _ _ _ (by omega)]
      have hb2 : (0 + pairs.length) - 1 = 0 + (es.length - 1) := by omega
      rw [hb2]
      rw [getD_writeSeq_in (scaleVals (engScale tok) es) _ 0 (es.length - 1)
        (by simp [scaleVals]; omega) (by simp [scaleVals]; omega)]
      rw [show (scaleVals (engScale tok) es).getD (es.length - 1) 0 =
        (scaleVals (engScale tok) es).getD ((scaleVals (engScale tok) es).length - 1) 0 by
          simp [scaleVals]]
      rw [getD_pred_eq_getLastD _ _ (by simp [scaleVals, hne])]
      rw [getLastD_scaleVals _ _ hne]

/-- Witness for C5 at concrete files: a complete 2-energy file with
decreasing energies (3 then 2) ends with `eng_min = 3`, `eng_max = 2`,
`eng_max < eng_min`; a file declaring 3 energies whose second pair lacks the
phase-shift line keeps `eng_max` at the last completed energy 5. -/
theorem claim5_witness :
    (parseFile ["2 0", "3", "1", "2", "1"]).map (fun pd => (pd.eng_min, pd.eng_max)) =
      .ok (some (3 * engScale ""), some (2 * engScale "")) ∧
    (parseFile ["2 0", "3", "1", "2", "1"]).map
        (fun pd => decide (pd.eng_max.getD 0 < pd.eng_min.getD 0)) = .ok true ∧
    (parseFile ["3 0", "5", "1", "7"]).map (fun pd => (pd.n_eng, pd.eng_max)) =
      .ok (1, some (5 * engScale "")) := by
  have hb3 : "3".data = ['3'] := by decide
  have hb2 : "2".data = ['2'] := by decide
  have hb5 : "5".data = ['5'] := by decide
  have hb7 : "7".data = ['7'] := by decide
  have h3 : parseDouble ("3".toList) = some 3 := by
    simp +decide [parseDouble, takeDigits, afterDot, splitSign, expOf, qpow10,
      natOfDigits, isWS, isDigitC, List.dropWhile, String.toList, hb3]
  have h2 : parseDouble ("2".toList) = some 2 := by
    simp +decide [parseDouble, takeDigits, afterDot, splitSign, expOf, qpow10,
      natOfDigits, isWS, isDigitC, List.dropWhile, String.toList, hb2]
  have h5 : parseDouble ("5".toList) = some 5 := by
    simp +decide [parseDouble, takeDigits, afterDot, splitSign, expOf, qpow10,
      natOfDigits, isWS, isDigitC, List.dropWhile, String.toList, hb5]
  have h7 : parseDouble ("7".toList) = some 7 := by
    simp +decide [parseDouble, takeDigits, afterDot, splitSign, expOf, qpow10,
      natOfDigits, isWS, isDigitC, List.dropWhile, String.toList, hb7]
  have hF1 : List.Forall₂ (fun (pr : String × String) v => parseDouble pr.1.toList = some v)
      [("3", "1"), ("2", "1")] [3, 2] :=
    List.Forall₂.cons h3 (List.Forall₂.cons h2 List.Forall₂.nil)
  have hF2 : List.Forall₂ (fun (pr : String × String) v => parseDouble pr.1.toList = some v)
      [("5", "1")] [5] := List.Forall₂.cons h5 List.Forall₂.nil
  obtain ⟨pd1, hpf1, hmin1, hmax1⟩ := claim5_minmax.1 ["2 0", "3", "1", "2", "1"] "2 0"
    [("3", "1"), ("2", "1")] [3, 2] 2 0 "" (by decide) (by decide) hF1 (by decide)
    (by decide)
  obtain ⟨pd2, a, b, hpf2, hmin2, hmax2, hlt⟩ := claim5_minmax.2.1
    ["2 0", "3", "1", "2", "1"] "2 0" [("3", "1"), ("2", "1")] [3, 2] 2 0 ""
    (by decide) (by decide) hF1 (by decide) (by decide) (show (2 : ℚ) < 3 by norm_num)
  obtain ⟨pd3, hpf3, hn3, hmin3, hmax3⟩ := claim5_minmax.2.2 ["3 0", "5", "1", "7"] "3 0"
    [("5", "1")] [5] "7" 7 3 0 "" (by decide) (by decide) hF2 h7 (by decide) (by decide)
  refine ⟨?_, ?_, ?_⟩
  · rw [hpf1]
    simp only [Except.map, hmin1, hmax1]
    rfl
  · rw [hpf2]
    simp only [Except.map, hmin2, hmax2]
    simp [hlt]
  · rw [hpf3]
    simp only [Except.map, hn3, hmin3, hmax3]
    rfl

/-- C6: for a non-absolute name (first character not the path separator)
with no `CLEED_PHASE` value, `resolveOrLoad` fails with the configuration
error uniformly in the filesystem — before any file-open attempt; with a
base directory the file identifier is `base ++ "/" ++ name ++ ".phs"`; an
absolute name is used verbatim. -/
theorem claim6_path_resolution (name : String) :
    (firstCharIs name '/' = false →
      (∀ (fs : String → Option (List String)) (d : List ℚ) (st : PhaseState),
        resolveOrLoad none fs name d st = .error .configError) ∧
      (∀ base : String, resolveFilename (some base) name =
        .ok (base ++ "/" ++ name ++ ".phs"))) ∧
    (firstCharIs name '/' = true →
      ∀ env : Option String, resolveFilename env name = .ok name) := by
  constructor
  · intro habs
    constructor
    · intro fs d st
      simp [resolveOrLoad, resolveFilename, habs]
    · intro base
      simp [resolveFilename, habs]
  · intro habs env
    simp [resolveFilename, habs]

/-- Witness for C6: the relative name `nickel` with no environment aborts
with the configuration error for an arbitrary filesystem, resolves to
`BASE/nickel.phs` under base directory `BASE`, and the absolute name
`/tmp/x.phs` is used verbatim. -/
theorem claim6_witness :
    resolveOrLoad none (fun _ => none) "nickel" [0, 0, 0, 0] ⟨[], 0⟩ =
      .error .configError ∧
    resolveFilename (some ("BASE")) "nickel" = .ok ("BASE/nickel.phs") ∧
    resolveFilename none "/tmp/x.phs" = .ok ("/tmp/x.phs") := by
  refine ⟨((claim6_path_resolution "nickel").1 (by decide)).1 _ _ _, ?_, ?_⟩
  · rw [((claim6_path_resolution "nickel").1 (by decide)).2 ("BASE")]
    decide
  · exact (claim6_path_resolution "/tmp/x.phs").2 (by decide) none

/-- C8: the repository is append-only.  For every successful call, every
record that existed before the call is unchanged at its index; a cache hit
leaves the whole state unchanged and returns an existing index; a cache miss
returns the sequence length before the call as the new index, increments
`i_phase` by one, and the slot at that position holds the newly built record
(identity fields `input_file` = resolved path and `dr` = the call's
displacement). -/
theorem claim8_append_only (env : Option String) (fs : String → Option (List String))
    (p : String) (d : List ℚ) (st : PhaseState) (r : PhsResult)
    (h : resolveOrLoad env fs p d st = .ok r) :
    (∀ j, j < st.i_phase → r.state.slots.getD j blankSlot = st.slots.getD j blankSlot) ∧
    (r.didParse = false → r.state = st ∧ r.index < st.i_phase) ∧
    (r.didParse = true → r.index = st.i_phase ∧ r.state.i_phase = st.i_phase + 1 ∧
      ∃ fn pd, resolveFilename env p = .ok fn ∧
        r.state.slots.getD st.i_phase blankSlot = mkRecord fn d pd) := by
  obtain ⟨fn, hfn, hcase⟩ := resolveOrLoad_ok_elim h
  rcases hcase with ⟨i, hscan, rfl⟩ | ⟨hscan, lines, pd, hfs, hpf, rfl⟩
  · refine ⟨fun j _ => rfl, fun _ => ⟨rfl, ?_⟩, fun hc => by simp at hc⟩
    obtain ⟨j, hij, hjl, _, _⟩ := (scanMatch_some_iff fn d (recordsOf st) 0 i).mp hscan
    have : (recordsOf st).length ≤ st.i_phase := by
      simp [recordsOf, List.length_take]
    show i < st.i_phase
    omega
  · refine ⟨fun j hj => appendState_getD_lt st fn d pd j hj,
      fun hc => by simp at hc,
      fun _ => ⟨rfl, appendState_i_phase st fn d pd,
        fn, pd, hfn, appendState_getD_new st fn d pd⟩⟩

/-- C9: after every call that appends a record, the slot at index `i_phase`
(immediately past the last real record) has its `lmax` field set to
`I_END_OF_LIST`, and the allocation holds exactly `i_phase + 1` slots (the
first call allocates 2, each later appending call reallocates to
`i_phase + 1`). -/
theorem claim9_sentinel (env : Option String) (fs : String → Option (List String))
    (p : String) (d : List ℚ) (st : PhaseState) (r : PhsResult)
    (h : resolveOrLoad env fs p d st = .ok r) (hp : r.didParse = true) :
    r.state.slots.length = r.state.i_phase + 1 ∧
    (r.state.slots.getD r.state.i_phase blankSlot).lmax = I_END_OF_LIST ∧
    (st.i_phase = 0 → r.state.slots.length = 2) := by
  obtain ⟨fn, hfn, hcase⟩ := resolveOrLoad_ok_elim h
  rcases hcase with ⟨i, hscan, rfl⟩ | ⟨hscan, lines, pd, hfs, hpf, rfl⟩
  · simp at hp
  · refine ⟨?_, ?_, ?_⟩
    · rw [show (⟨st.i_phase, appendState st fn d pd, pd.warnings, true⟩ :
        PhsResult).state = appendState st fn d pd from rfl]
      rw [appendState_slots_length, appendState_i_phase]
    · rw [show (⟨st.i_phase, appendState st fn d pd, pd.warnings, true⟩ :
        PhsResult).state = appendState st fn d pd from rfl]
      rw [appendState_i_phase]
      exact appendState_sentinel st fn d pd
    · intro hz
      rw [show (⟨st.i_phase, appendState st fn d pd, pd.warnings, true⟩ :
        PhsResult).state = appendState st fn d pd from rfl]
      rw [appendState_slots_length, hz]

/-- Filesystem holding one phase-shift file `/a.phs` declaring one energy
and `lmax = 0`, used by the concrete cache scenarios below. -/
def fsA : String → Option (List String) := fun f =>
  if f = "/a.phs" then some ["1 0", "2", "5"] else none

/-- The record that loading `/a.phs` with zero displacement produces. -/
def recA : LeedPhase :=
  { lmax := 0, input_file := "/a.phs", dr := [0, 0, 0, 0], n_eng := 1,
    energy := [2], pshift := [5], eng_min := some 2, eng_max := none }

/-- A slot whose `lmax` holds the end-of-list sentinel. -/
def sentinelSlot : LeedPhase := { blankSlot with lmax := I_END_OF_LIST }

/-- State after the first load of `/a.phs`: one record plus the sentinel. -/
def stA : PhaseState := ⟨[recA, sentinelSlot], 1⟩

theorem firstLoad_fsA :
    resolveOrLoad none fsA "/a.phs" [0, 0, 0, 0] ⟨[], 0⟩ = .ok ⟨0, stA, [], true⟩ := by
  have hd1 : "1 0".data = ['1', ' ', '0'] := by decide
  have hd2 : "2".data = ['2'] := by decide
  have hd3 : "5".data = ['5'] := by decide
  have hda : "/a.phs".data = ['/', 'a', '.', 'p', 'h', 's'] := by decide
  simp +decide [resolveOrLoad, resolveFilename, fsA, recordsOf, scanMatch, appendState,
    padTake, drCopy, blankSlot, recA, sentinelSlot, stA, parseFile, parseHeader,
    parseIntTok, firstTok, engScale, firstCharIs, strncmp2, readLoop, writePShifts,
    writePShiftsGo, skipSM, skipNSM, parseDouble, takeDigits, afterDot, splitSign,
    expOf, qpow10, natOfDigits, isWS, isDigitC, List.dropWhile, HART, String.toList,
    hd1, hd2, hd3, hda, GEO_TOLERANCE, matchesRec, I_END_OF_LIST]

theorem hitLoad_fsA :
    resolveOrLoad none fsA "/a.phs" [0, 0, 0, 0] stA = .ok ⟨0, stA, [], false⟩ := by
  have hda : "/a.phs".data = ['/', 'a', '.', 'p', 'h', 's'] := by decide
  simp +decide [resolveOrLoad, resolveFilename, fsA, recordsOf, scanMatch, recA, stA,
    firstCharIs, GEO_TOLERANCE, matchesRec, String.toList, hda]

/-- Witness for C8: a hit call on the one-record state leaves the state
unchanged and returns the existing index 0 < i_phase. -/
theorem claim8_witness :
    resolveOrLoad none fsA "/a.phs" [0, 0, 0, 0] stA = .ok ⟨0, stA, [], false⟩ ∧
    (⟨0, stA, [], false⟩ : PhsResult).state = stA ∧ 0 < stA.i_phase := by
  have h8 := claim8_append_only none fsA "/a.phs" [0, 0, 0, 0] stA ⟨0, stA, [], false⟩
    hitLoad_fsA
  exact ⟨hitLoad_fsA, (h8.2.1 rfl).1, (h8.2.1 rfl).2⟩

/-- Witness for C9: after the first load the allocation has 2 slots and the
slot at index 1 carries the sentinel `lmax`. -/
theorem claim9_witness :
    resolveOrLoad none fsA "/a.phs" [0, 0, 0, 0] ⟨[], 0⟩ = .ok ⟨0, stA, [], true⟩ ∧
    stA.slots.length = stA.i_phase + 1 ∧
    (stA.slots.getD stA.i_phase blankSlot).lmax = I_END_OF_LIST ∧
    stA.slots.length = 2 := by
  have h9 := claim9_sentinel none fsA "/a.phs" [0, 0, 0, 0] ⟨[], 0⟩ ⟨0, stA, [], true⟩
    firstLoad_fsA rfl
  exact ⟨firstLoad_fsA, h9.1, h9.2.1, h9.2.2 rfl⟩

theorem getD_take {α : Type} (l : List α) (n j : Nat) (d : α) (h : j < n) :
    (l.take n).getD j d = l.getD j d := by
  induction l generalizing n j with
  | nil => simp
  | cons a t ih =>
    cases n with
    | zero => omega
    | succ m =>
      rw [List.take_succ_cons]
      cases j with
      | zero => rfl
      | succ k => simpa using ih m k (by omega)

/-- C1 (amended): if a call `resolveOrLoad(p, d)` appended a new record (a
cache miss), then a second call with a displacement `d2` within the
tolerance of `d` on components 1..3 performs no new file parse and appends
no record: it returns the index of the first record matching `(p, d2)` in
insertion order, which is at most the appended index, and equals it whenever
no earlier record also matches `(p, d2)`. -/
theorem claim1_amended (env : Option String) (fs : String → Option (List String))
    (p : String) (d d2 : List ℚ) (st : PhaseState) (r1 : PhsResult) (fn : String)
    (h1 : resolveOrLoad env fs p d st = .ok r1)
    (hp : r1.didParse = true)
    (hfn : resolveFilename env p = .ok fn)
    (ht1 : |d2.getD 1 0 - d.getD 1 0| < GEO_TOLERANCE)
    (ht2 : |d2.getD 2 0 - d.getD 2 0| < GEO_TOLERANCE)
    (ht3 : |d2.getD 3 0 - d.getD 3 0| < GEO_TOLERANCE) :
    ∃ j, j ≤ r1.index ∧
      resolveOrLoad env fs p d2 r1.state = .ok ⟨j, r1.state, [], false⟩ ∧
      scanMatch fn d2 (recordsOf r1.state) 0 = some j ∧
      ((∀ j', j' < r1.index →
          matchesRec fn d2 (r1.state.slots.getD j' blankSlot) = false) →
        j = r1.index) := by
  obtain ⟨fn', hfn', hcase⟩ := resolveOrLoad_ok_elim h1
  rcases hcase with ⟨i, hscan, rfl⟩ | ⟨hscan, lines, pd, hfs, hpf, rfl⟩
  · simp at hp
  · rw [hfn] at hfn'
    have hfneq : fn = fn' := Except.ok.inj hfn'
    subst hfneq
    have hmatch : matchesRec fn d2 (mkRecord fn d pd) = true := by
      have g1 : (mkRecord fn d pd).dr.getD 1 0 = d.getD 1 0 := rfl
      have g2 : (mkRecord fn d pd).dr.getD 2 0 = d.getD 2 0 := rfl
      have g3 : (mkRecord fn d pd).dr.getD 3 0 = d.getD 3 0 := rfl
      have e0 : decide ((mkRecord fn d pd).input_file = fn) = true := by
        simp [mkRecord]
      have e1 : decide (|d2.getD 1 0 - (mkRecord fn d pd).dr.getD 1 0| <
          GEO_TOLERANCE) = true := by
        rw [g1]
        exact decide_eq_true ht1
      have e2 : decide (|d2.getD 2 0 - (mkRecord fn d pd).dr.getD 2 0| <
          GEO_TOLERANCE) = true := by
        rw [g2]
        exact decide_eq_true ht2
      have e3 : decide (|d2.getD 3 0 - (mkRecord fn d pd).dr.getD 3 0| <
          GEO_TOLERANCE) = true := by
        rw [g3]
        exact decide_eq_true ht3
      rw [matchesRec, e0, e1, e2, e3]
      rfl
    set st1 : PhaseState := appendState st fn d pd with hst1
    have hlen : st1.slots.length = st.i_phase + 2 := appendState_slots_length st fn d pd
    have hip : st1.i_phase = st.i_phase + 1 := appendState_i_phase st fn d pd
    have hreclen : (recordsOf st1).length = st.i_phase + 1 := by
      simp [recordsOf, List.length_take, hlen, hip]
    have hrecat : (recordsOf st1).getD st.i_phase blankSlot = mkRecord fn d pd := by
      rw [recordsOf, getD_take _ _ _ _ (by omega), appendState_getD_new]
    cases hscan2 : scanMatch fn d2 (recordsOf st1) 0 with
    | none =>
      exfalso
      have := (scanMatch_none_iff fn d2 (recordsOf st1) 0).mp hscan2 st.i_phase
        (by omega)
      rw [hrecat, hmatch] at this
      exact absurd this (by simp)
    | some jj =>
      obtain ⟨j, hij, hjl, hmj, hfirst⟩ :=
        (scanMatch_some_iff fn d2 (recordsOf st1) 0 jj).mp hscan2
      have hjj : jj = j := by omega
      subst hjj
      have hjle : jj ≤ st.i_phase := by
        by_contra hgt
        have := hfirst st.i_phase (by omega)
        rw [hrecat, hmatch] at this
        exact absurd this (by simp)
      refine ⟨jj, hjle, ?_, rfl, ?_⟩
      · simp only [resolveOrLoad, hfn, hscan2]
      · intro hno
        by_contra hne
        have hidx : (⟨st.i_phase, st1, pd.warnings, true⟩ : PhsResult).index =
          st.i_phase := rfl
        rw [hidx] at hne hno
        have hjlt : jj < st.i_phase := by omega
        have hmfalse := hno jj hjlt
        have hgetd : st1.slots.getD jj blankSlot = (recordsOf st1).getD jj blankSlot := by
          rw [recordsOf, getD_take _ _ _ _ (by omega)]
        rw [hgetd, hmj] at hmfalse
        exact absurd hmfalse (by simp)

/-- C7 (amended): when the resolved path and displacement match no existing
record — in particular when the displacement differs from the stored
displacement of every record with that path by at least the tolerance on
some component — a successful call is a cache miss: it parses the file and
returns the previously unused index `i_phase`. -/
theorem claim7_amended (env : Option String) (fs : String → Option (List String))
    (p : String) (d : List ℚ) (st : PhaseState) (fn : String) (r : PhsResult)
    (hfn : resolveFilename env p = .ok fn)
    (hno : ∀ j, j < st.i_phase → matchesRec fn d (st.slots.getD j blankSlot) = false)
    (h : resolveOrLoad env fs p d st = .ok r) :
    r.didParse = true ∧ r.index = st.i_phase := by
  obtain ⟨fn', hfn', hcase⟩ := resolveOrLoad_ok_elim h
  rw [hfn] at hfn'
  have hfneq : fn = fn' := Except.ok.inj hfn'
  subst hfneq
  rcases hcase with ⟨i, hscan, rfl⟩ | ⟨hscan, lines, pd, hfs, hpf, rfl⟩
  · exfalso
    obtain ⟨j, hij, hjl, hmj, _⟩ := (scanMatch_some_iff fn d (recordsOf st) 0 i).mp hscan
    have hjlt : j < st.i_phase := by
      have : (recordsOf st).length ≤ st.i_phase := by
        simp [recordsOf, List.length_take]
      omega
    have hgetd : (recordsOf st).getD j blankSlot = st.slots.getD j blankSlot := by
      rw [recordsOf, getD_take _ _ _ _ hjlt]
    rw [hgetd, hno j hjlt] at hmj
    exact absurd hmj (by simp)
  · exact ⟨rfl, rfl⟩

/-- Record appended when `/a.phs` is re-requested with displacement
`[0, 14/100000, 0, 0]` (beyond tolerance of the stored zero displacement). -/
def recDrift : LeedPhase := { recA with dr := [0, 14/100000, 0, 0] }

/-- State after that second, drifted load. -/
def stDrift : PhaseState := ⟨[recA, recDrift, sentinelSlot], 2⟩

/-- Record appended when `/a.phs` is re-requested with displacement
`[0, 5/10000, 0, 0]`. -/
def recB : LeedPhase := { recA with dr := [0, 5/10000, 0, 0] }

/-- State holding two records with the same path and displacements 0 and
5/10000. -/
def stB : PhaseState := ⟨[recA, recB, sentinelSlot], 2⟩

theorem matchesRec_seven : matchesRec "/a.phs" [0, 7/100000, 0, 0] recA = true := by
  have e1 : decide (|([0, (7 : ℚ)/100000, 0, 0].getD 1 0) - recA.dr.getD 1 0| <
      GEO_TOLERANCE) = true := by
    apply decide_eq_true
    show |(7 : ℚ)/100000 - 0| < GEO_TOLERANCE
    rw [show (7 : ℚ)/100000 - 0 = 7/100000 by ring, abs_of_nonneg (by norm_num),
      GEO_TOLERANCE]
    norm_num
  have e2 : decide (|([0, (7 : ℚ)/100000, 0, 0].getD 2 0) - recA.dr.getD 2 0| <
      GEO_TOLERANCE) = true := by
    apply decide_eq_true
    show |(0 : ℚ) - 0| < GEO_TOLERANCE
    rw [show (0 : ℚ) - 0 = 0 by ring, abs_zero, GEO_TOLERANCE]
    norm_num
  have e3 : decide (|([0, (7 : ℚ)/100000, 0, 0].getD 3 0) - recA.dr.getD 3 0| <
      GEO_TOLERANCE) = true := by
    apply decide_eq_true
    show |(0 : ℚ) - 0| < GEO_TOLERANCE
    rw [show (0 : ℚ) - 0 = 0 by ring, abs_zero, GEO_TOLERANCE]
    norm_num
  rw [matchesRec, e1, e2, e3]
  rfl

theorem matchesRec_fourteen : matchesRec "/a.phs" [0, 14/100000, 0, 0] recA = false := by
  have e1 : decide (|([0, (14 : ℚ)/100000, 0, 0].getD 1 0) - recA.dr.getD 1 0| <
      GEO_TOLERANCE) = false := by
    apply decide_eq_false
    show ¬ |(14 : ℚ)/100000 - 0| < GEO_TOLERANCE
    rw [show (14 : ℚ)/100000 - 0 = 14/100000 by ring, abs_of_nonneg (by norm_num),
      GEO_TOLERANCE]
    norm_num
  rw [matchesRec, e1]
  simp

theorem matchesRec_five : matchesRec "/a.phs" [0, 5/10000, 0, 0] recA = false := by
  have e1 : decide (|([0, (5 : ℚ)/10000, 0, 0].getD 1 0) - recA.dr.getD 1 0| <
      GEO_TOLERANCE) = false := by
    apply decide_eq_false
    show ¬ |(5 : ℚ)/10000 - 0| < GEO_TOLERANCE
    rw [show (5 : ℚ)/10000 - 0 = 5/10000 by ring, abs_of_nonneg (by norm_num),
      GEO_TOLERANCE]
    norm_num
  rw [matchesRec, e1]
  simp

theorem matchesRec_zero : matchesRec "/a.phs" [0, 0, 0, 0] recA = true := by
  have e : ∀ k : Nat, decide (|([0, (0 : ℚ), 0, 0].getD k 0) - recA.dr.getD k 0| <
      GEO_TOLERANCE) = true := by
    intro k
    apply decide_eq_true
    have hk : ([0, (0 : ℚ), 0, 0].getD k 0) = 0 := by
      match k with
      | 0 => rfl
      | 1 => rfl
      | 2 => rfl
      | 3 => rfl
      | n + 4 => rfl
    have hk2 : (recA.dr.getD k 0) = 0 := by
      match k with
      | 0 => rfl
      | 1 => rfl
      | 2 => rfl
      | 3 => rfl
      | n + 4 => rfl
    rw [hk, hk2, show (0 : ℚ) - 0 = 0 by ring, abs_zero, GEO_TOLERANCE]
    norm_num
  rw [matchesRec, e 1, e 2, e 3]
  rfl

theorem hitLoad_seven :
    resolveOrLoad none fsA "/a.phs" [0, 7/100000, 0, 0] stA = .ok ⟨0, stA, [], false⟩ := by
  simp only [resolveOrLoad, resolveFilename]
  rw [if_pos (by decide)]
  simp only [recordsOf, stA]
  rw [show (([recA, sentinelSlot].take 1 : List LeedPhase)) = [recA] from rfl]
  rw [scanMatch, if_pos matchesRec_seven]

theorem parseFile_aphs :
    parseFile ["1 0", "2", "5"] = .ok
      { lmax := 0, n_eng := 1, energy := [2], pshift := [5], eng_min := some 2,
        eng_max := none, warnings := [] } := by
  have hd1 : "1 0".data = ['1', ' ', '0'] := by decide
  have hd2 : "2".data = ['2'] := by decide
  have hd3 : "5".data = ['5'] := by decide
  simp +decide [parseFile, parseHeader, parseIntTok, firstTok, engScale, firstCharIs,
    strncmp2, readLoop, writePShifts, writePShiftsGo, skipSM, skipNSM, parseDouble,
    takeDigits, afterDot, splitSign, expOf, qpow10, natOfDigits, isWS, isDigitC,
    List.dropWhile, HART, String.toList, hd1, hd2, hd3]

theorem missLoad_fourteen :
    resolveOrLoad none fsA "/a.phs" [0, 14/100000, 0, 0] stA =
      .ok ⟨1, stDrift, [], true⟩ := by
  have hscan : scanMatch "/a.phs" [0, 14/100000, 0, 0] (recordsOf stA) 0 = none := by
    simp only [recordsOf, stA]
    rw [show (([recA, sentinelSlot].take 1 : List LeedPhase)) = [recA] from rfl]
    rw [scanMatch, if_neg (by rw [matchesRec_fourteen]; exact Bool.false_ne_true),
      scanMatch]
  have hfs : fsA "/a.phs" = some ["1 0", "2", "5"] := rfl
  simp only [resolveOrLoad, resolveFilename]
  rw [if_pos (by decide)]
  simp only [hscan, hfs, parseFile_aphs]
  rfl

theorem missLoad_five :
    resolveOrLoad none fsA "/a.phs" [0, 5/10000, 0, 0] stA = .ok ⟨1, stB, [], true⟩ := by
  have hscan : scanMatch "/a.phs" [0, 5/10000, 0, 0] (recordsOf stA) 0 = none := by
    simp only [recordsOf, stA]
    rw [show (([recA, sentinelSlot].take 1 : List LeedPhase)) = [recA] from rfl]
    rw [scanMatch, if_neg (by rw [matchesRec_five]; exact Bool.false_ne_true), scanMatch]
  have hfs : fsA "/a.phs" = some ["1 0", "2", "5"] := rfl
  simp only [resolveOrLoad, resolveFilename]
  rw [if_pos (by decide)]
  simp only [hscan, hfs, parseFile_aphs]
  rfl

theorem hitLoad_zero_stB :
    resolveOrLoad none fsA "/a.phs" [0, 0, 0, 0] stB = .ok ⟨0, stB, [], false⟩ := by
  simp only [resolveOrLoad, resolveFilename]
  rw [if_pos (by decide)]
  simp only [recordsOf, stB]
  rw [show (([recA, recB, sentinelSlot].take 2 : List LeedPhase)) = [recA, recB]
    from rfl]
  rw [scanMatch, if_pos matchesRec_zero]

/-- Counterexample to C1 as stated: the call with `d = [0, 7e-5, 0, 0]` has
already returned index 0 (a cache hit on the zero-displacement record), and
`d2 = [0, 14e-5, 0, 0]` differs from `d` by less than the tolerance on every
component, yet the second call returns the fresh index 1, parses the file
again, and appends a record. -/
theorem claim1_counterexample :
    resolveOrLoad none fsA "/a.phs" [0, 7/100000, 0, 0] stA = .ok ⟨0, stA, [], false⟩ ∧
    |(14 : ℚ)/100000 - 7/100000| < GEO_TOLERANCE ∧
    |(0 : ℚ) - 0| < GEO_TOLERANCE ∧
    resolveOrLoad none fsA "/a.phs" [0, 14/100000, 0, 0] stA =
      .ok ⟨1, stDrift, [], true⟩ ∧
    (1 : Nat) ≠ 0 := by
  refine ⟨hitLoad_seven, ?_, ?_, missLoad_fourteen, by decide⟩
  · rw [show (14 : ℚ)/100000 - 7/100000 = 7/100000 by ring,
      abs_of_nonneg (by norm_num), GEO_TOLERANCE]
    norm_num
  · rw [show (0 : ℚ) - 0 = 0 by ring, abs_zero, GEO_TOLERANCE]
    norm_num

/-- Witness for the amended C1: after the first load of `/a.phs` appended
record 0, a second call with displacement `[0, 5/100000, 0, 0]` (within
tolerance of the zero displacement) is a cache hit returning index 0. -/
theorem claim1_witness :
    resolveOrLoad none fsA "/a.phs" [0, 5/100000, 0, 0] stA = .ok ⟨0, stA, [], false⟩ := by
  obtain ⟨j, hj, hcall, _, _⟩ := claim1_amended none fsA "/a.phs" [0, 0, 0, 0]
    [0, 5/100000, 0, 0] ⟨[], 0⟩ ⟨0, stA, [], true⟩ "/a.phs" firstLoad_fsA rfl (by decide)
    (by
      show |(5 : ℚ)/100000 - 0| < GEO_TOLERANCE
      rw [show (5 : ℚ)/100000 - 0 = 5/100000 by ring, abs_of_nonneg (by norm_num),
        GEO_TOLERANCE]
      norm_num)
    (by
      show |(0 : ℚ) - 0| < GEO_TOLERANCE
      rw [show (0 : ℚ) - 0 = 0 by ring, abs_zero, GEO_TOLERANCE]
      norm_num)
    (by
      show |(0 : ℚ) - 0| < GEO_TOLERANCE
      rw [show (0 : ℚ) - 0 = 0 by ring, abs_zero, GEO_TOLERANCE]
      norm_num)
  have hj0 : j = 0 := Nat.le_zero.mp hj
  rw [hj0] at hcall
  exact hcall

/-- Counterexample to C7 as stated (read per-record): the state `stB` holds
record 1 with path `/a.phs` and displacement 5/10000; a call with the same
path and displacement 0 — differing from record 1's stored displacement by
more than the tolerance on component 1 — is nevertheless treated as a cache
hit on record 0: no parse, no new index.  The state itself is reachable
(conjunct 4 builds record 1 from `stA`). -/
theorem claim7_counterexample :
    |(0 : ℚ) - 5/10000| > GEO_TOLERANCE ∧
    stB.slots.getD 1 blankSlot = recB ∧
    recB.input_file = "/a.phs" ∧
    resolveOrLoad none fsA "/a.phs" [0, 5/10000, 0, 0] stA = .ok ⟨1, stB, [], true⟩ ∧
    resolveOrLoad none fsA "/a.phs" [0, 0, 0, 0] stB = .ok ⟨0, stB, [], false⟩ := by
  refine ⟨?_, rfl, rfl, missLoad_five, hitLoad_zero_stB⟩
  rw [show (0 : ℚ) - 5/10000 = -(5/10000) by ring, abs_neg,
    abs_of_nonneg (by norm_num), GEO_TOLERANCE]
  norm_num

/-- Witness for the amended C7: on the one-record state, a displacement
differing from every stored record beyond tolerance gives a cache miss that
parses and returns the fresh index `i_phase = 1`. -/
theorem claim7_witness :
    resolveOrLoad none fsA "/a.phs" [0, 5/10000, 0, 0] stA = .ok ⟨1, stB, [], true⟩ ∧
    (⟨1, stB, [], true⟩ : PhsResult).didParse = true ∧
    (⟨1, stB, [], true⟩ : PhsResult).index = stA.i_phase := by
  have h7 := claim7_amended none fsA "/a.phs" [0, 5/10000, 0, 0] stA "/a.phs"
    ⟨1, stB, [], true⟩ (by decide)
    (by
      intro j hj
      have hj0 : j = 0 := by
        have : stA.i_phase = 1 := rfl
        omega
      rw [hj0]
      exact matchesRec_five)
    missLoad_five
  exact ⟨missLoad_five, h7.1, h7.2⟩

end Linpphase
